import Mathlib

/-!
Verification of the K8s-Agent diagnostic workflow engine.

Shallow embedding of the core components:
* `bean/graph/Graph.py`, `bean/graph/Node.py`, `bean/graph/Edge.py`
  (graph data model and the traversal state machine
  `Graph.jump_to_node_by_condition` / `Graph.find_group_input`),
* `bean/memory/BaseMemory.py` and `bean/memory/NodeMemoryItem.py`
  (action-keyed memory store with a `heapq` priority structure),
* `bean/workflow/workflowManager.py` and `bean/executor/graphExecutor.py`
  (the task supervision loop `run_all_tasks` and the per-workflow
  exception boundary),
* `bean/stage/base/ActionStage.py` and `utils/tools.py`
  (self-consistency voting `select_final_output`, signature extraction
  `extract_tool_signature`, and the bounded repair loop `process_sct`),
* `utils/str_utils.py` and `utils/StageUtils.py`
  (regex conclusion extraction `process_regex` and the per-question node
  update `_process_question_nodes`).

Python conventions mirrored by the embedding:
* exceptions are modelled with `Except PyErr`; an attribute access on an
  object that lacks the attribute is an `AttributeError`;
* `dict` is modelled as an association list with unique-key semantics
  (`find?` for `get`, in-place map for item update, append for fresh
  insert); iterating a dict yields its KEYS, as in Python;
* Python truthiness of an optional string (`None` and `""` are falsy) is
  `optStrTruthy`;
* `datetime` timestamps are modelled as integers with the usual order.
-/

/-- Python exception values, distinguished by their class. -/
inductive PyErr where
  | attributeError (msg : String)
  | exception (msg : String)
  | valueError (msg : String)
  deriving Repr, DecidableEq

/-- Python truthiness of an `Optional[str]`: `None` and `""` are falsy. -/
def optStrTruthy : Option String → Bool
  | none => false
  | some s => s ≠ ""

/-- Abstract syntax of a compiled regular expression: the fragment of
Python `re` patterns the embedding interprets (literals, `.`,
concatenation, alternation `|`, greedy `*`).  A `Regex` value stands for
a pattern string that `re.compile` accepted. -/
inductive Regex where
  | emptyStr
  | lit (c : Char)
  | anyChar
  | seq (a b : Regex)
  | alt (a b : Regex)
  | star (a : Regex)
  deriving Repr, DecidableEq

/-- Render a `Regex` back to pattern-string form (used where Python
interpolates the pattern into a message). -/
def reprRegex : Regex → String
  | .emptyStr => ""
  | .lit c => String.mk [c]
  | .anyChar => "."
  | .seq a b => reprRegex a ++ reprRegex b
  | .alt a b => "(" ++ reprRegex a ++ "|" ++ reprRegex b ++ ")"
  | .star a => "(" ++ reprRegex a ++ ")*"

/-- `bean/graph/Edge.py`: an edge owns its id, endpoints, type and the
`condition_value` label matched during transition.  (The class has NO
attribute named `target`; only `target_node`.) -/
structure Edge where
  edge_id : String
  source_node : String
  target_node : String
  edge_type : String
  condition_value : String
  deriving Repr, DecidableEq

/-- `bean/graph/Node.py`: the fields of `Node` read by the code under
verification.  Layout fields (`node_left`, `node_top`), timing fields and
`status` are never read by the modelled operations and are omitted.
`regex` is `Optional`: the Python field is a string whose emptiness is
tested by truthiness, modelled as `Option Regex` (the compiled form of a
non-empty pattern). -/
structure Node where
  node_id : String
  question : String := ""
  regex : Option Regex := none
  action : String := ""
  description : String := ""
  node_type : String
  edges : List Edge := []
  parent_node : Option String := none
  conclusion : String := ""
  deriving Repr, DecidableEq

/-- `bean/graph/Graph.py`: node dictionary (as an association list in
insertion order), edge list, and the traversal cursor
`current_node_id`. -/
structure Graph where
  nodes : List (String × Node)
  edges : List Edge
  start_node_id : String := "1"
  current_node_id : String := "1"
  deriving Repr, DecidableEq

/-- `Graph.get_node`: dictionary lookup. -/
def Graph.get_node (g : Graph) (node_id : String) : Option Node :=
  (g.nodes.find? (fun kv => kv.1 == node_id)).map Prod.snd

/-- `Graph.find_group_input` (`Graph.py` lines 237-250).

The Python body is
`input_nodes = [node for node in self.nodes if node.parent_node == ... ]`;
`self.nodes` is a dict, so the comprehension iterates its KEYS (strings).
Evaluating `node.parent_node` on a string raises `AttributeError` on the
first iteration; with an empty dict the comprehension is empty and the
`len(input_nodes) == 1` check fails, raising the "必须有且仅有一个"
exception with count 0.  The function therefore never succeeds. -/
def Graph.find_group_input (g : Graph) : Except PyErr (Graph × Bool) :=
  match g.nodes with
  | [] =>
      match g.get_node g.current_node_id with
      | none => .error (.attributeError "'NoneType' object has no attribute 'node_id'")
      | some current_node =>
          .error (.exception ("Group 节点 " ++ current_node.node_id ++
            " 必须有且仅有一个 input 节点，但找到了 0 个"))
  | _ :: _ => .error (.attributeError "'str' object has no attribute 'parent_node'")

/-- `Graph.jump_to_node_by_condition` (`Graph.py` lines 176-235), the
traversal state machine.  Returns the updated graph (only
`current_node_id` ever changes) together with the Python `bool` result,
or the raised exception.

Faithfulness notes, mirroring the source line by line:
* `input` branch (lines 193-200): with exactly one edge the source
  executes `self.current_node_id = edges[0].target`; `Edge` has no
  attribute `target` (the field is `target_node`), so this raises
  `AttributeError` before any jump happens.
* `default`/`output` branch (lines 203-216): the condition scan only runs
  under `if condition_value:` (truthiness); first label-equal edge wins;
  otherwise fall back to a truthy `parent_node`, else raise.
* `group` branch (lines 219-232): the FIRST label-equal edge decides; a
  non-`group` (or missing) target raises; if no edge label matches, the
  group is a sink and the function returns `False` without error.  Note
  the source calls `find_group_input` WITHOUT first moving the cursor to
  the matched target group. -/
def Graph.jump_to_node_by_condition (g : Graph)
    (condition_value : Option String := none) : Except PyErr (Graph × Bool) :=
  match g.get_node g.current_node_id with
  | none => .error (.valueError ("当前节点 ID " ++ g.current_node_id ++ " 不存在。"))
  | some current_node =>
      let edges := current_node.edges
      if current_node.node_type = "input" then
        if edges.length = 1 then
          .error (.attributeError "'Edge' object has no attribute 'target'")
        else
          .error (.exception ("Input 节点 " ++ current_node.node_id ++
            " 必须有且只有一个连接的边"))
      else if current_node.node_type = "default" ∨ current_node.node_type = "output" then
        let hit : Option Edge :=
          if optStrTruthy condition_value then
            edges.find? (fun e => condition_value == some e.condition_value)
          else none
        match hit with
        | some e => .ok ({ g with current_node_id := e.target_node }, true)
        | none =>
            if optStrTruthy current_node.parent_node then
              .ok ({ g with current_node_id := current_node.parent_node.getD "" }, true)
            else
              .error (.exception ("节点 " ++ current_node.node_id ++
                " 没有跳转节点且没有父节点"))
      else if current_node.node_type = "group" then
        match edges.find? (fun e => condition_value == some e.condition_value) with
        | some e =>
            match g.get_node e.target_node with
            | some tgt =>
                if tgt.node_type = "group" then
                  g.find_group_input
                else
                  .error (.exception ("Group 节点 " ++ current_node.node_id ++
                    " 的目标节点 " ++ e.target_node ++ " 不是有效的 group 节点"))
            | none =>
                .error (.exception ("Group 节点 " ++ current_node.node_id ++
                  " 的目标节点 " ++ e.target_node ++ " 不是有效的 group 节点"))
        | none => .ok (g, false)
      else
        .error (.exception ("未知的节点类型: " ++ current_node.node_type))

/-! ## Memory store (`bean/memory/NodeMemoryItem.py`, `bean/memory/BaseMemory.py`)

`QuestionNodePair.question_node_map` is a Python dict mapping a question
string to a SET of node ids.  The dict is an association list (unique
keys by construction), the set is a list compared only through
membership, which is exactly the equality Python sets provide. -/

/-- `QuestionNodePair`: question → node-id set. -/
structure QuestionNodePair where
  question_node_map : List (String × List String)
  deriving Repr, DecidableEq

/-- `QuestionNodePair.add_node_ids`: if the question is already a key,
union the new ids into the existing set (`set.update`); otherwise insert
a fresh `question -> node_ids` entry. -/
def QuestionNodePair.add_node_ids (p : QuestionNodePair) (question : String)
    (node_ids : List String) : QuestionNodePair :=
  if (p.question_node_map.find? (fun kv => kv.1 == question)).isSome then
    ⟨p.question_node_map.map (fun kv =>
      if kv.1 == question then (kv.1, kv.2 ++ node_ids.filter (fun n => ¬ n ∈ kv.2)) else kv)⟩
  else
    ⟨p.question_node_map ++ [(question, node_ids)]⟩

/-- Membership view of a `QuestionNodePair`: node `n` is associated with
`question` (used to state set-level properties; Python sets are compared
by membership). -/
def QuestionNodePair.mem (p : QuestionNodePair) (question n : String) : Prop :=
  ∃ kv ∈ p.question_node_map, kv.1 = question ∧ n ∈ kv.2

instance (p : QuestionNodePair) (question n : String) :
    Decidable (p.mem question n) := by
  unfold QuestionNodePair.mem; infer_instance

/-- `NodeMemoryItem`: one record keyed by its `action` string. -/
structure NodeMemoryItem where
  action : String
  observation : String := ""
  description : String := ""
  question_node_pair : QuestionNodePair
  timestamp : Int
  deriving Repr, DecidableEq

/-- `NodeMemoryItem.add_question_node_pair`, delegating to
`QuestionNodePair.add_node_ids`. -/
def NodeMemoryItem.add_question_node_pair (item : NodeMemoryItem)
    (question : String) (node_ids : List String) : NodeMemoryItem :=
  { item with question_node_pair := item.question_node_pair.add_node_ids question node_ids }

/-- `BaseMemory`: the `heapq` priority structure `memory_store` holding
`(-timestamp, action)` entries, and the `action -> NodeMemoryItem` index
`action_map`.  (`record_map` and the two stage collaborators play no part
in the claims and are omitted.)  The heap is modelled as the bag of its
entries; `heapq.heappush` appends and `heapq.heappop` removes the
lexicographically smallest pair, which is the library's contract. -/
structure BaseMemory where
  memory_store : List (Int × String)
  action_map : List (String × NodeMemoryItem)
  deriving Repr, DecidableEq

/-- The merge performed on an existing record by `store_data`: every
`(question, node_ids)` pair of the incoming item is added to the
existing one, and the timestamp is overwritten with the incoming
item's. -/
def mergeItem (old : NodeMemoryItem) (item : NodeMemoryItem) : NodeMemoryItem :=
  { (item.question_node_pair.question_node_map.foldl
      (fun acc qn => acc.add_question_node_pair qn.1 qn.2) old) with
    timestamp := item.timestamp }

/-- `BaseMemory.store_data` (`BaseMemory.py` lines 41-63): merge into an
existing record for the same action (adding every question/node-id pair
and overwriting the timestamp with the incoming one), or insert fresh;
in both cases push `(-timestamp, action)` onto the priority queue. -/
def BaseMemory.store_data (m : BaseMemory) (item : NodeMemoryItem) : BaseMemory :=
  let action_map :=
    if (m.action_map.find? (fun kv => kv.1 == item.action)).isSome then
      m.action_map.map (fun kv =>
        if kv.1 == item.action then (kv.1, mergeItem kv.2 item) else kv)
    else
      m.action_map ++ [(item.action, item)]
  { memory_store := m.memory_store ++ [(-item.timestamp, item.action)],
    action_map := action_map }

/-! ### `heapq` pop and `refresh_all_items` -/

/-- Lexicographic `<=` on `(int, str)` pairs, the order `heapq` uses for
the `(-timestamp, action)` entries. -/
def entryLe (a b : Int × String) : Bool :=
  a.1 < b.1 || (a.1 == b.1 && a.2 ≤ b.2)

/-- The smaller of two heap entries (first argument wins ties). -/
def entryMin (a b : Int × String) : Int × String :=
  if entryLe a b then a else b

/-- The minimum entry of a non-empty heap: what `heapq.heappop` returns. -/
def heapMin : List (Int × String) → Option (Int × String)
  | [] => none
  | x :: xs => some (xs.foldl entryMin x)

/-- One step of `refresh_all_items`' drain loop, as a trace event:
the popped entry was skipped (`action_map` no longer holds the action),
processed successfully (and `(-new_timestamp, action)` recorded for
reinsertion), or its refresh raised (caught and logged per item). -/
inductive PopEvent where
  | skipped (entry : Int × String)
  | succeeded (entry : Int × String) (reinserted : Int × String)
  | failed (entry : Int × String)
  deriving Repr, DecidableEq

/-- The popped entry of a trace event. -/
def PopEvent.entry : PopEvent → Int × String
  | .skipped e => e
  | .succeeded e _ => e
  | .failed e => e

/-- The reinserted entry of a successful trace event. -/
def PopEvent.reinserted? : PopEvent → Option (Int × String)
  | .succeeded _ r => some r
  | _ => none

/-- `item.run_action_and_update` is a call into the external action
executor and the extraction stage; it either raises (modelled `none`) or
returns the item with a fresh `datetime.now()` timestamp and updated
observation/conclusions (modelled by an oracle giving the outcome per
action). -/
def RefreshOracle := String → NodeMemoryItem → Option NodeMemoryItem

/-- The drain loop of `BaseMemory.refresh_all_items` (`BaseMemory.py`
lines 86-104): pop the minimum `(-timestamp, action)` entry, look the
action up in `action_map` (skip if absent), run the refresh (on failure
the exception is caught per item), and collect `(-new_timestamp, action)`
of every successful refresh for reinsertion.  Returns the trace of pop
events and the final `action_map`. -/
def refreshDrainGo (proc : RefreshOracle) :
    Nat → List (Int × String) → List (String × NodeMemoryItem) →
    List PopEvent × List (String × NodeMemoryItem)
  | 0, _, amap => ([], amap)
  | fuel + 1, store, amap =>
    match heapMin store with
    | none => ([], amap)
    | some e =>
        let store' := store.erase e
        match amap.find? (fun kv => kv.1 == e.2) with
        | none =>
            let rec' := refreshDrainGo proc fuel store' amap
            (.skipped e :: rec'.1, rec'.2)
        | some kv =>
            match proc e.2 kv.2 with
            | none =>
                let rec' := refreshDrainGo proc fuel store' amap
                (.failed e :: rec'.1, rec'.2)
            | some item' =>
                let amap' := amap.map (fun kv' =>
                  if kv'.1 == e.2 then (kv'.1, item') else kv')
                let rec' := refreshDrainGo proc fuel store' amap'
                (.succeeded e (-item'.timestamp, e.2) :: rec'.1, rec'.2)

/-- The drain loop, with its recursion fuelled by the queue length: each
pop removes exactly one entry (the popped minimum is an element of the
queue, nothing is pushed inside the loop), so `store.length` iterations
always drain the queue completely. -/
def refreshDrain (proc : RefreshOracle) (store : List (Int × String))
    (amap : List (String × NodeMemoryItem)) :
    List PopEvent × List (String × NodeMemoryItem) :=
  refreshDrainGo proc store.length store amap

/-- `BaseMemory.refresh_all_items`: drain the queue, then push every
collected `(-new_timestamp, action)` entry back.  The trace is returned
alongside so that properties of the processing order can be stated. -/
def BaseMemory.refresh_all_items (proc : RefreshOracle) (m : BaseMemory) :
    BaseMemory × List PopEvent :=
  let d := refreshDrain proc m.memory_store m.action_map
  ({ memory_store := d.1.filterMap PopEvent.reinserted?, action_map := d.2 }, d.1)


/-! ## Workflow manager (`bean/workflow/workflowManager.py`)

The `run_all_tasks` wait loop (claim C4):

`run_all_tasks` is a coroutine; its interaction with the event loop is
modelled as a state machine.  The three suspension points of the Python
body are the loop head, `await asyncio.wait(pending, FIRST_COMPLETED)`
and `await self.new_tasks_event.wait()`.  External occurrences are task
completions and `add_task` calls (`add_task` appends the task and SETS
`new_tasks_event`; it is the only place the event is ever set). -/

/-- Control position of the `run_all_tasks` coroutine. -/
inductive MgrPhase where
  /-- at the `while True:` head (lines 67-76). -/
  | loopTop
  /-- suspended in `await asyncio.wait(pending_tasks, FIRST_COMPLETED)`
  (line 77); `waitingOn` is the snapshot of pending task indices. -/
  | awaitingFirst (waitingOn : List Nat)
  /-- suspended in `await self.new_tasks_event.wait()` (line 85). -/
  | awaitingEvent
  /-- the coroutine returned to its caller. -/
  | returned
  deriving Repr, DecidableEq

/-- State of the manager as seen by `run_all_tasks`: the done flag of
every registered task (index = registration order), the
`new_tasks_event` flag, and the coroutine's control position. -/
structure MgrState where
  tasksDone : List Bool
  eventSet : Bool
  phase : MgrPhase
  deriving Repr, DecidableEq

/-- External occurrences interleaved with the coroutine: a task
finishes, `add_task` registers a new task (setting the event), or the
scheduler gives `run_all_tasks` a chance to resume (`resume`). -/
inductive MgrEvent where
  | taskFinishes (i : Nat)
  | addTask
  | resume
  deriving Repr, DecidableEq

/-- One transition of the model.  `resume` advances the coroutine by one
suspension-to-suspension segment exactly as the Python body does:
* at `loopTop`: return if the task dict is empty or no task is pending;
  otherwise clear `new_tasks_event` and enter `asyncio.wait` on the
  pending snapshot;
* at `awaitingFirst`: wake only if a snapshot member is done, then fall
  through to `await new_tasks_event.wait()` (the completed tasks are
  only inspected for logging);
* at `awaitingEvent`: proceed to `loopTop` only if the event is set —
  otherwise stay suspended;
* `returned` is absorbing. -/
def mgrStep (s : MgrState) : MgrEvent → MgrState
  | .taskFinishes i => { s with tasksDone := s.tasksDone.set i true }
  | .addTask => { s with tasksDone := s.tasksDone ++ [false], eventSet := true }
  | .resume =>
      match s.phase with
      | .loopTop =>
          if s.tasksDone.isEmpty then { s with phase := .returned }
          else if s.tasksDone.all (fun d => d) then { s with phase := .returned }
          else
            { s with eventSet := false,
                     phase := .awaitingFirst
                       ((List.range s.tasksDone.length).filter
                         (fun i => s.tasksDone.getD i true = false)) }
      | .awaitingFirst waitingOn =>
          if waitingOn.any (fun i => s.tasksDone.getD i false) then
            { s with phase := .awaitingEvent }
          else s
      | .awaitingEvent =>
          if s.eventSet then { s with phase := .loopTop } else s
      | .returned => s

/-- Run the model over a sequence of occurrences. -/
def mgrRun (s : MgrState) (evs : List MgrEvent) : MgrState :=
  evs.foldl mgrStep s

/-- The manager state right after `GraphExecutor.execute` registered the
initial workflow task and awaited `run_all_tasks`: one pending task, the
event set by that `add_task`, coroutine at the loop head. -/
def mgrInit : MgrState := { tasksDone := [false], eventSet := true, phase := .loopTop }

/-- The schedule in which the single task finishes and nothing else ever
happens: `run_all_tasks` resumes, waits, the task completes,
`run_all_tasks` is resumed again (waking `asyncio.wait`), and from then
on the scheduler may offer it arbitrarily many further resumptions. -/
def mgrHangTrace (n : Nat) : List MgrEvent :=
  [.resume, .taskFinishes 0, .resume] ++ List.replicate n .resume

/-! ### The per-workflow exception boundary (claims C4/C5 context)

`GraphExecutor.process_workflow` wraps the whole step loop in
`try/except`; the handler removes the workflow via
`WorkflowManager.remove_workflow` and breaks out of the loop.
`remove_workflow` deletes the bookkeeping entries and calls
`task.cancel()` on a not-yet-done task.  Because the handler runs INSIDE
that very task, `cancel()` marks the running task "must cancel"; when
the coroutine then returns, asyncio finishes the task in the CANCELLED
state.  `run_all_tasks` (lines 80-82) later calls `task.exception()` on
every completed task — and `Task.exception()` on a cancelled task raises
`CancelledError` into `run_all_tasks`. -/

/-- Lifecycle state of an `asyncio.Task` object. -/
inductive TaskSt where
  | running
  /-- `cancel()` was called while the task was executing: cancellation
  pending ("must cancel"). -/
  | cancelRequested
  | doneOk
  | doneCancelled
  deriving Repr, DecidableEq

/-- `Task.done()`. -/
def TaskSt.done : TaskSt → Bool
  | .doneOk => true
  | .doneCancelled => true
  | _ => false

/-- `Task.cancel()` on the task's state. -/
def TaskSt.cancel (t : TaskSt) : TaskSt :=
  if t.done then t else .cancelRequested

/-- The state the task object reaches when its coroutine returns
normally (as `process_workflow` does after `break`): a pending
cancellation turns the finished task into CANCELLED. -/
def TaskSt.onCoroutineReturn : TaskSt → TaskSt
  | .cancelRequested => .doneCancelled
  | .running => .doneOk
  | t => t

/-- `Task.exception()`: raises `CancelledError` on a cancelled task,
raises `InvalidStateError` on a pending one, and otherwise returns the
stored exception (`none` when the coroutine returned normally). -/
def TaskSt.exception : TaskSt → Except String (Option String)
  | .doneCancelled => .error "CancelledError"
  | .doneOk => .ok none
  | _ => .error "InvalidStateError"

/-- Manager bookkeeping plus the shared task objects.  `workflows` and
`taskIds` are the two dicts of `WorkflowManager`; `objs` maps a task
object identity to its lifecycle state (the objects outlive the dict
entries — `asyncio.wait` holds its own references). -/
structure WfSystem where
  workflows : List String
  taskIds : List (String × Nat)
  objs : List (Nat × TaskSt)
  deriving Repr, DecidableEq

/-- Look up a task object's state. -/
def WfSystem.objSt (sys : WfSystem) (tid : Nat) : Option TaskSt :=
  (sys.objs.find? (fun kv => kv.1 == tid)).map Prod.snd

/-- `WorkflowManager.remove_workflow` (lines 26-36): delete the workflow
entry, cancel the associated task if it is not done, and delete the task
entry. -/
def WfSystem.remove_workflow (sys : WfSystem) (workflow_id : String) : WfSystem :=
  let workflows := sys.workflows.erase workflow_id
  match sys.taskIds.find? (fun kv => kv.1 == workflow_id) with
  | none => { sys with workflows := workflows }
  | some kv =>
      { workflows := workflows,
        taskIds := sys.taskIds.filter (fun kv' => ¬ kv'.1 == workflow_id),
        objs := sys.objs.map (fun o => if o.1 == kv.2 then (o.1, o.2.cancel) else o) }

/-- The `except` handler of `GraphExecutor.process_workflow` (lines
164-168) followed by the coroutine's return (`break` falls off the
function body): remove the workflow — cancelling its own still-running
task — and finish the task object. -/
def processWorkflowException (sys : WfSystem) (workflow_id : String) : WfSystem :=
  let sys' := sys.remove_workflow workflow_id
  match sys.taskIds.find? (fun kv => kv.1 == workflow_id) with
  | none => sys'
  | some kv =>
      { sys' with objs := sys'.objs.map (fun o =>
          if o.1 == kv.2 then (o.1, o.2.onCoroutineReturn) else o) }

/-- The completed-task inspection of `run_all_tasks` (lines 80-82):
`for task in done: if task.exception(): ...` — the first call on a
cancelled task raises `CancelledError` out of `run_all_tasks`. -/
def runAllTasksInspectDone : List TaskSt → Except String Unit
  | [] => .ok ()
  | t :: ts =>
      match t.exception with
      | .error e => .error e
      | .ok _ => runAllTasksInspectDone ts

/-- Concrete two-workflow system: `w1` (about to raise in its step loop)
and `w2` (still running), both tracked. -/
def wfSys0 : WfSystem :=
  { workflows := ["w1", "w2"],
    taskIds := [("w1", 0), ("w2", 1)],
    objs := [(0, .running), (1, .running)] }

/-! ## Stage layer (`bean/stage/base/ActionStage.py`, `utils/tools.py`)

Signature extraction and self-consistency voting (claim C8):

The structured-output collaborator (`tool_parser.parse`) is pluggable: it
returns an `AgentAction` (tool name + tool input), an `AgentFinish`, or
raises a parse error.  An `AgentAction.tool_input` is either a bare
string or a dict of string arguments. -/

/-- `AgentAction.tool_input`. -/
inductive ToolInput where
  | strInput (s : String)
  | dictInput (l : List (String × String))
  deriving Repr, DecidableEq

/-- The range of `tool_parser.parse`. -/
inductive ParseRes where
  | action (tool : String) (input : ToolInput)
  | finish (output : String)
  deriving Repr, DecidableEq

/-- The pluggable structured-output collaborator: raw text to parse
result or parse error. -/
def ParseFn := String → Except String ParseRes

/-- Python `str.lower()` on the character sequence (the ASCII lowering
relevant to tool names and arguments). -/
def pyLower (s : String) : String := String.mk (s.data.map Char.toLower)

/-- The dict comprehension of `extract_tool_signature`
(`utils/tools.py` lines 35-38): lower-case every key and every value;
on a (post-lowering) key collision the later entry wins, as in a Python
dict comprehension. -/
def lowerDict (l : List (String × String)) : List (String × String) :=
  l.foldl (fun acc kv =>
    let k := pyLower kv.1
    let v := pyLower kv.2
    if (acc.find? (fun e => e.1 == k)).isSome then
      acc.map (fun e => if e.1 == k then (k, v) else e)
    else acc ++ [(k, v)]) []

/-- Total comparison on `(key, value)` pairs, keys first. -/
def pairKeyLe (a b : String × String) : Bool :=
  decide (a.1 < b.1) || (a.1 == b.1 && decide (a.2 ≤ b.2))

/-- Sorted insertion for `canonFrozenset`. -/
def insertPairSorted (x : String × String) :
    List (String × String) → List (String × String)
  | [] => [x]
  | y :: ys => if pairKeyLe y x then y :: insertPairSorted x ys else x :: y :: ys

/-- `frozenset(d.items())`: canonical (sorted) form of the item set, so
that structural equality coincides with Python's set equality.  The
argument always comes from `lowerDict`, whose keys are unique, so no
deduplication is needed. -/
def canonFrozenset (l : List (String × String)) : List (String × String) :=
  l.foldr insertPairSorted []

/-- A voting signature (`utils/tools.py` `extract_tool_signature`):
`(tool, tool_input.lower())` for a string input, or
`(tool, frozenset(lowered items))` for a dict input.  The tool name is
taken verbatim from the parse result — the source does NOT lower-case
it. -/
inductive ToolSig where
  | strSig (tool : String) (input : String)
  | setSig (tool : String) (args : List (String × String))
  deriving Repr, DecidableEq

/-- `extract_tool_signature` (`utils/tools.py` lines 17-40), composed
with the `try/except` of `select_final_output`: a parse error
propagates, and an `AgentFinish` raises `AttributeError` at
`parsed_output.tool` (the class has no such attribute). -/
def extract_tool_signature (parse : ParseFn) (output : String) :
    Except String ToolSig :=
  match parse output with
  | .error e => .error e
  | .ok (.finish _) =>
      .error "AttributeError: 'AgentFinish' object has no attribute 'tool'"
  | .ok (.action tool (.strInput s)) => .ok (.strSig tool (pyLower s))
  | .ok (.action tool (.dictInput l)) =>
      .ok (.setSig tool (canonFrozenset (lowerDict l)))

/-- Distinct elements in first-occurrence order: the keys of
`collections.Counter(l)`. -/
def counterKeys {α : Type} [DecidableEq α] (l : List α) : List α :=
  l.foldl (fun acc s => if s ∈ acc then acc else acc ++ [s]) []

/-- `Counter(l).most_common(1)[0][0]`: among the keys in
first-occurrence order, the first one of maximal count (`heapq.nlargest`
over a stable order keeps the earliest on ties). -/
def mostCommon1 {α : Type} [DecidableEq α] (l : List α) : Option α :=
  match counterKeys l with
  | [] => none
  | k :: ks =>
      some (ks.foldl (fun best s => if l.count s > l.count best then s else best) k)

/-- Stable insertion for sorting by string length (`list.sort(key=len)`
is a stable sort; a stable sort by one key is uniquely determined). -/
def insertByLen (x : String) : List String → List String
  | [] => [x]
  | y :: ys => if y.length < x.length then y :: insertByLen x ys else x :: y :: ys

/-- Stable sort of the matched outputs by length. -/
def sortByLen (l : List String) : List String := l.foldr insertByLen []

/-- The loop of `select_final_output` filling `valid_outputs` /
`valid_signatures`: outputs paired with their signature, outputs whose
extraction raised dropped. -/
def validPairs (parse : ParseFn) (outputs : List String) :
    List (String × ToolSig) :=
  outputs.filterMap (fun o =>
    match extract_tool_signature parse o with
    | .ok s => some (o, s)
    | .error _ => none)

/-- `matched_outputs`: the valid outputs whose signature equals the
winner. -/
def matchedOutputs (parse : ParseFn) (outputs : List String)
    (winner : ToolSig) : List String :=
  ((validPairs parse outputs).filter (fun p => p.2 == winner)).map Prod.fst

/-- `ActionStage.select_final_output` (`ActionStage.py` lines 177-226):
drop outputs whose signature extraction raises, vote for the most common
signature (ties: first occurrence), and of the outputs bearing the
winning signature return the one at index `len // 2` after a stable
sort by length. -/
def select_final_output (parse : ParseFn) (outputs : List String) :
    Except String String :=
  if outputs.isEmpty then .error "输出列表不能为空"
  else
    let valid := validPairs parse outputs
    if valid.isEmpty then .error "所有的输出解析均失败，未能找到匹配的输出。"
    else
      match mostCommon1 (valid.map Prod.snd) with
      | none => .error "所有的输出解析均失败，未能找到匹配的输出。"
      | some winner =>
          let matched := matchedOutputs parse outputs winner
          if matched.isEmpty then .error "未能找到匹配的输出。"
          else
            let sorted := sortByLen matched
            .ok (sorted.getD (sorted.length / 2) "")

/-- The signature the CLAIM describes: identical to
`extract_tool_signature` except that the tool name is lower-cased.
(Written from the claim's words, for comparison with the source's
behaviour.) -/
def extractSigClaimed (parse : ParseFn) (output : String) :
    Except String ToolSig :=
  match parse output with
  | .error e => .error e
  | .ok (.finish _) =>
      .error "AttributeError: 'AgentFinish' object has no attribute 'tool'"
  | .ok (.action tool (.strInput s)) => .ok (.strSig (pyLower tool) (pyLower s))
  | .ok (.action tool (.dictInput l)) =>
      .ok (.setSig (pyLower tool) (canonFrozenset (lowerDict l)))

/-- Final-output selection as the CLAIM describes it (lower-cased tool
name in the signature); the rest of the pipeline is unchanged. -/
def selectFinalOutputClaimed (parse : ParseFn) (outputs : List String) :
    Except String String :=
  if outputs.isEmpty then .error "输出列表不能为空"
  else
    let valid := outputs.filterMap (fun o =>
      match extractSigClaimed parse o with
      | .ok s => some (o, s)
      | .error _ => none)
    if valid.isEmpty then .error "所有的输出解析均失败，未能找到匹配的输出。"
    else
      match mostCommon1 (valid.map Prod.snd) with
      | none => .error "所有的输出解析均失败，未能找到匹配的输出。"
      | some winner =>
          let matched := (valid.filter (fun p => p.2 == winner)).map Prod.fst
          if matched.isEmpty then .error "未能找到匹配的输出。"
          else
            let sorted := sortByLen matched
            .ok (sorted.getD (sorted.length / 2) "")

/-! ### The bounded repair loop `process_sct` (claim C9)

`ActionStage.process_sct` (lines 256-314) runs one `try_fix_output`
coroutine per output under `asyncio.gather`.  Each coroutine loops
`while attempt < fixing_num and remaining_fixes > 0`, where
`remaining_fixes` starts at `fixing_num * len(outputs)` and is shared
(`nonlocal`) across all coroutines; every repair call decrements it by
one BEFORE the only `await` of the iteration, so check and decrement are
atomic with respect to the cooperative scheduler.  The model makes the
interleaving explicit: a schedule is an arbitrary list of task indices,
and one step runs one loop iteration of the chosen coroutine. -/

/-- Per-output repair state: current text, repair attempts made in this
pass, and whether the coroutine has returned. -/
structure FixTask where
  output : String
  attempt : Nat
  done : Bool
  deriving Repr, DecidableEq

/-- Shared state of one `process_sct` call. -/
structure SctState where
  tasks : List FixTask
  remaining : Nat
  totalCalls : Nat
  deriving Repr, DecidableEq

/-- One loop iteration of `try_fix_output` for task `i`:
* if the guard `attempt < fixing_num and remaining_fixes > 0` fails, the
  loop exits (coroutine returns its current output);
* else parse-and-validate (`parseOk`); success breaks out of the loop;
* else one repair call: `attempt += 1`, `remaining_fixes -= 1`,
  `total_attempt += 1`, and the output is replaced by the repair
  oracle's answer.
A step on a finished or out-of-range index is a no-op. -/
def sctStep (parseOk : String → Bool) (fixFn : String → String)
    (fixing_num : Nat) (s : SctState) (i : Nat) : SctState :=
  match s.tasks.get? i with
  | none => s
  | some t =>
      if t.done then s
      else if t.attempt < fixing_num ∧ 0 < s.remaining then
        if parseOk t.output then
          { s with tasks := s.tasks.set i { t with done := true } }
        else
          { s with
              tasks := s.tasks.set i
                { output := fixFn t.output, attempt := t.attempt + 1, done := false },
              remaining := s.remaining - 1,
              totalCalls := s.totalCalls + 1 }
      else
        { s with tasks := s.tasks.set i { t with done := true } }

/-- Run a schedule of loop iterations. -/
def sctRun (parseOk : String → Bool) (fixFn : String → String)
    (fixing_num : Nat) (s : SctState) (sched : List Nat) : SctState :=
  sched.foldl (sctStep parseOk fixFn fixing_num) s

/-- Initial state of a `process_sct` call with fixing enabled:
`remaining_fixes = fixing_num * len(outputs)`, no calls made. -/
def sctInit (fixing_num : Nat) (outputs : List String) : SctState :=
  { tasks := outputs.map (fun o => { output := o, attempt := 0, done := false }),
    remaining := fixing_num * outputs.length,
    totalCalls := 0 }

/-- Entering the optional dynamic-fixing second pass: every coroutine is
restarted on its already-repaired output with a fresh per-output
`attempt` counter, while the shared budget and the call total carry
over. -/
def sctResetPass (s : SctState) : SctState :=
  { s with tasks := s.tasks.map (fun t => { output := t.output, attempt := 0, done := false }) }

/-- A whole `process_sct` execution with fixing enabled: first pass under
`sched1`; if `dynamic_fixing` is set and budget remains, a second pass
under `sched2` over the repaired outputs. -/
def processSctModel (parseOk : String → Bool) (fixFn : String → String)
    (fixing_num : Nat) (dynamic_fixing : Bool) (outputs : List String)
    (sched1 sched2 : List Nat) : SctState :=
  let s1 := sctRun parseOk fixFn fixing_num (sctInit fixing_num outputs) sched1
  if dynamic_fixing ∧ 0 < s1.remaining then
    sctRun parseOk fixFn fixing_num (sctResetPass s1) sched2
  else s1

/-- Termination measure of the repair loops: a non-no-op step strictly
decreases it. -/
def sctMeasure (fixing_num : Nat) (s : SctState) : Nat :=
  (s.tasks.map (fun t => if t.done then 0 else fixing_num + 1 - t.attempt)).sum

/-! ## Regex conclusion extraction (`utils/str_utils.py`, claim C10)

`re.search(regex, result)` scans start positions left to right and at
each position lets the backtracking engine try alternatives in priority
order (left alternative first, greedy `*` longest first); `group(0)` is
the text of the match.  `matchEnds r s` returns, in engine priority
order, the suffixes that remain after matching a prefix of `s` against
`r`; the head of the list is the match the engine commits to. -/

/-- Greedy repetition: try one progress-making body match and recurse,
then the empty repetition.  The fuel (string length) bounds the number
of progress-making repetitions; the body matches are filtered for
progress, mirroring the engine's refusal to loop on empty matches. -/
def starLoop (f : List Char → List (List Char)) : Nat → List Char → List (List Char)
  | 0, s => [s]
  | n + 1, s =>
      (((f s).filter (fun r => r.length < s.length)).map (starLoop f n)).flatten ++ [s]

/-- Priority-ordered match ends of a pattern against a prefix of `s`. -/
def matchEnds : Regex → List Char → List (List Char)
  | .emptyStr, s => [s]
  | .lit c, s =>
      match s with
      | [] => []
      | a :: rest => if a = c then [rest] else []
  | .anyChar, s =>
      match s with
      | [] => []
      | _ :: rest => [rest]
  | .seq a b, s => ((matchEnds a s).map (matchEnds b)).flatten
  | .alt a b, s => matchEnds a s ++ matchEnds b s
  | .star a, s => starLoop (matchEnds a) s.length s

/-- `re.search` returning `match.group(0)`: try start positions left to
right; at the first position with a match, commit to the
priority-first match end and return the consumed prefix. -/
def reSearch (r : Regex) : List Char → Option (List Char)
  | [] => ((matchEnds r []).head?).map (fun _ => ([] : List Char))
  | s@(_ :: rest) =>
      match (matchEnds r s).head? with
      | some e => some (s.take (s.length - e.length))
      | none => reSearch r rest

/-- Declarative acceptance of a pattern. -/
inductive RMatch : Regex → List Char → Prop
  | emptyStr : RMatch .emptyStr []
  | lit (c : Char) : RMatch (.lit c) [c]
  | anyChar (c : Char) : RMatch .anyChar [c]
  | seq {a b : Regex} {u v : List Char} :
      RMatch a u → RMatch b v → RMatch (.seq a b) (u ++ v)
  | altL {a b : Regex} {u : List Char} : RMatch a u → RMatch (.alt a b) u
  | altR {a b : Regex} {u : List Char} : RMatch b u → RMatch (.alt a b) u
  | starNil {a : Regex} : RMatch (.star a) []
  | starCons {a : Regex} {u v : List Char} :
      RMatch a u → RMatch (.star a) v → RMatch (.star a) (u ++ v)

/-- `utils/str_utils.py` `process_regex` (lines 4-19): the matched text
on success, a readable failure description interpolating the observation
and the pattern otherwise.  Total by construction — mirroring that the
Python body has no raise and `re.search` returns normally on every
subject string for a compiled pattern. -/
def process_regex (result : String) (regex : Regex) : String :=
  match reSearch regex result.data with
  | some m => String.mk m
  | none => "正则表达式匹配失败: '" ++ result ++ "' 配置的正则: " ++ reprRegex regex

/-- `utils/StageUtils.py` `_process_question_nodes` (lines 55-92), the
per-question update running under the semaphore: take the first node of
the set (the Python `next(iter(nodes))`; on an empty set this raises and
the surrounding `except` leaves the nodes untouched), compute ONE
conclusion — by `process_regex` when the node has a regex, otherwise by
the extraction stage (an external collaborator, modelled as an oracle) —
and assign it to every node sharing the question. -/
def _process_question_nodes (extract : String → String → String)
    (observation : String) (question : String) (nodes : List Node) : List Node :=
  match nodes with
  | [] => nodes
  | first :: _ =>
      let conclusion :=
        match first.regex with
        | some r => process_regex observation r
        | none => extract observation question
      nodes.map (fun n => { n with conclusion := conclusion })

/-! ## Concrete instances used by witnesses and counterexamples -/

/-- Decision node with a single `"yes"` edge and parent group `"g1"`. -/
def nodeC1 : Node :=
  { node_id := "d1", node_type := "default",
    edges := [⟨"e1", "d1", "n2", "default", "yes"⟩],
    parent_node := some "g1" }

/-- Graph whose cursor sits on `nodeC1`. -/
def gC1 : Graph :=
  { nodes := [("d1", nodeC1)], edges := [⟨"e1", "d1", "n2", "default", "yes"⟩],
    current_node_id := "d1" }

/-- Group node whose only edge (label `"x"`) targets a NON-group node. -/
def nodeC2X : Node :=
  { node_id := "g", node_type := "group",
    edges := [⟨"e1", "g", "d", "default", "x"⟩] }

/-- Graph for the C2 counterexample: cursor on the group `"g"`, matched
target `"d"` is a plain decision node. -/
def gC2X : Graph :=
  { nodes := [("g", nodeC2X), ("d", { node_id := "d", node_type := "default" })],
    edges := [⟨"e1", "g", "d", "default", "x"⟩],
    current_node_id := "g" }

/-- Group node with a single `"y"` edge, used with a non-matching
condition. -/
def nodeC2A : Node :=
  { node_id := "g2", node_type := "group",
    edges := [⟨"e2", "g2", "t", "default", "y"⟩] }

/-- Graph for the C2 amended witness: cursor on the sink group `"g2"`. -/
def gC2A : Graph :=
  { nodes := [("g2", nodeC2A), ("t", { node_id := "t", node_type := "group" })],
    edges := [⟨"e2", "g2", "t", "default", "y"⟩],
    current_node_id := "g2" }

/-- Graph for C3: a well-formed Entry node `"1"` with exactly one
outgoing edge to `"2"`. -/
def gC3 : Graph :=
  { nodes := [("1", { node_id := "1", node_type := "input",
                      edges := [⟨"e1", "1", "2", "default", ""⟩] }),
              ("2", { node_id := "2", node_type := "default" })],
    edges := [⟨"e1", "1", "2", "default", ""⟩],
    current_node_id := "1" }

/-- First record for action `"kubectl get pod"`: question `"q1"` on node
`"n1"`, stored at time 1. -/
def itemC6a : NodeMemoryItem :=
  { action := "kubectl get pod", question_node_pair := ⟨[("q1", ["n1"])]⟩, timestamp := 1 }

/-- Second record for the same action: disjoint question `"q2"` on node
`"n2"`, stored at time 5. -/
def itemC6b : NodeMemoryItem :=
  { action := "kubectl get pod", question_node_pair := ⟨[("q2", ["n2"])]⟩, timestamp := 5 }

/-- Parser fixture for C8: `"A"` and `"CCC"` parse to tool `"Foo"`,
`"BB"` to tool `"foo"`, all with empty argument dicts; anything else is
a parse error. -/
def parseC8 : ParseFn := fun o =>
  if o = "A" then .ok (.action "Foo" (.dictInput []))
  else if o = "BB" then .ok (.action "foo" (.dictInput []))
  else if o = "CCC" then .ok (.action "Foo" (.dictInput []))
  else .error "parse error"

/-- Parse check fixture for C9: only the text `"ok"` passes. -/
def parseOkC9 : String → Bool := fun s => s == "ok"

/-- Repair oracle fixture for C9: always answers `"fixed"`. -/
def fixFnC9 : String → String := fun _ => "fixed"

/-- Node with regex `'b'` for the C10 witness. -/
def nodeC10a : Node :=
  { node_id := "n1", node_type := "default", question := "q",
    regex := some (.lit 'b') }

/-- Second node sharing question `"q"`. -/
def nodeC10b : Node :=
  { node_id := "n2", node_type := "default", question := "q" }

/-! # Theorems -/

/-- A condition value matching no edge label makes the first scan of
`jump_to_node_by_condition` come up empty. -/
theorem find_label_eq_none (edges : List Edge) (cond : Option String)
    (hnomatch : ∀ e ∈ edges, cond ≠ some e.condition_value) :
    edges.find? (fun e => cond == some e.condition_value) = none := by
  rw [List.find?_eq_none]
  intro e he
  simpa using hnomatch e he

/-- C1: on a Decision (`"default"`) or Terminal (`"output"`) node, a
condition value matching no outgoing edge label makes `advance` climb to
the node's non-empty `parent_group` and succeed, and raise the
no-transition exception when there is no parent. -/
theorem C1_decision_terminal_no_match_fallback
    (g : Graph) (node : Node) (cond : Option String)
    (hget : g.get_node g.current_node_id = some node)
    (htype : node.node_type = "default" ∨ node.node_type = "output")
    (hnomatch : ∀ e ∈ node.edges, cond ≠ some e.condition_value) :
    (∀ p, node.parent_node = some p → p ≠ "" →
      g.jump_to_node_by_condition cond =
        .ok ({ g with current_node_id := p }, true)) ∧
    (optStrTruthy node.parent_node = false →
      g.jump_to_node_by_condition cond =
        .error (.exception ("节点 " ++ node.node_id ++ " 没有跳转节点且没有父节点"))) := by
  have hfind := find_label_eq_none node.edges cond hnomatch
  constructor
  · intro p hp hpne
    rcases htype with h | h <;>
      simp [Graph.jump_to_node_by_condition, hget, h, hfind, optStrTruthy, hp, hpne]
  · intro hfalse
    rcases htype with h | h <;>
      simp [Graph.jump_to_node_by_condition, hget, h, hfind, hfalse]

/-- C1 witness: the Decision node `d1` with edges `{"yes": "n2"}`,
conclusion `"no"` and `parent_group = "g1"` advances to `"g1"`. -/
theorem C1_witness :
    gC1.jump_to_node_by_condition (some "no") =
      .ok ({ gC1 with current_node_id := "g1" }, true) :=
  (C1_decision_terminal_no_match_fallback gC1 nodeC1 (some "no")
    (by decide) (Or.inl rfl) (by decide)).1 "g1" rfl (by decide)

/-- C2 counterexample: on the Group node `"g"` the condition `"x"`
matches no outgoing edge whose target is a Group (the single matching
edge targets the Decision node `"d"`), yet the call raises instead of
reporting traversal completion. -/
theorem C2_counterexample :
    (∀ e ∈ nodeC2X.edges, some "x" = some e.condition_value →
      ¬ ∃ t, gC2X.get_node e.target_node = some t ∧ t.node_type = "group") ∧
    gC2X.jump_to_node_by_condition (some "x") =
      .error (.exception "Group 节点 g 的目标节点 d 不是有效的 group 节点") := by
  constructor
  · decide
  · rfl

/-- C2 amended: on a Group node, a condition value that matches no
outgoing edge LABEL at all makes `advance` return `False` without
raising (the group is a sink, the traversal-complete signal); a matching
label whose target is not a Group instead raises. -/
theorem C2_amended_group_sink (g : Graph) (node : Node) (cond : Option String)
    (hget : g.get_node g.current_node_id = some node)
    (htype : node.node_type = "group")
    (hnomatch : ∀ e ∈ node.edges, cond ≠ some e.condition_value) :
    g.jump_to_node_by_condition cond = .ok (g, false) := by
  have hfind := find_label_eq_none node.edges cond hnomatch
  simp [Graph.jump_to_node_by_condition, hget, htype, hfind]

/-- C2 amended witness: the sink group `"g2"` with non-matching
condition `"z"` reports traversal completion. -/
theorem C2_amended_witness :
    gC2A.jump_to_node_by_condition (some "z") = .ok (gC2A, false) :=
  C2_amended_group_sink gC2A nodeC2A (some "z") (by decide) rfl (by decide)

/-- C3: on the well-formed Entry node `"1"` with exactly one outgoing
edge, `advance` raises `AttributeError` (`Edge` has no attribute
`target`; the field is `target_node`) instead of following the edge; and
`find_group_input`, the "enter group" half of the Entry rule, raises
`AttributeError` on any non-empty node dict because it iterates the dict
(yielding id strings) instead of its values. -/
theorem C3_entry_advance_is_broken :
    gC3.jump_to_node_by_condition none =
      .error (.attributeError "'Edge' object has no attribute 'target'") ∧
    gC3.find_group_input =
      .error (.attributeError "'str' object has no attribute 'parent_node'") := by
  exact ⟨rfl, rfl⟩

/-- The stuck state of the C4 scenario: the only task is done, the event
is clear, and `run_all_tasks` is suspended in
`await self.new_tasks_event.wait()`. -/
theorem mgr_stuck_state_absorbing :
    mgrStep { tasksDone := [true], eventSet := false, phase := .awaitingEvent }
        .resume =
      { tasksDone := [true], eventSet := false, phase := .awaitingEvent } := rfl

/-- C4: `run_all_tasks` does NOT return once every registered task has
finished.  In the run where the single tracked task completes and no
further `add_task` call ever happens, the coroutine reaches
`await self.new_tasks_event.wait()` with the event cleared; however many
times the scheduler resumes it afterwards, it stays suspended there even
though every task is done. -/
theorem C4_run_all_tasks_waits_forever (n : Nat) :
    ((mgrRun mgrInit (mgrHangTrace n)).tasksDone.all (fun d => d)) = true ∧
    (mgrRun mgrInit (mgrHangTrace n)).phase = MgrPhase.awaitingEvent := by
  have hpre : mgrRun mgrInit [.resume, .taskFinishes 0, .resume] =
      { tasksDone := [true], eventSet := false, phase := .awaitingEvent } := by rfl
  have hrep : ∀ m,
      mgrRun { tasksDone := [true], eventSet := false, phase := .awaitingEvent }
          (List.replicate m .resume) =
        { tasksDone := [true], eventSet := false, phase := .awaitingEvent } := by
    intro m
    induction m with
    | zero => rfl
    | succ k ih =>
        rw [List.replicate_succ]
        show mgrRun (mgrStep _ .resume) (List.replicate k .resume) = _
        rw [mgr_stuck_state_absorbing]
        exact ih
  have : mgrRun mgrInit (mgrHangTrace n) =
      { tasksDone := [true], eventSet := false, phase := .awaitingEvent } := by
    show mgrRun mgrInit ([.resume, .taskFinishes 0, .resume] ++ List.replicate n .resume) = _
    rw [mgrRun, List.foldl_append]
    exact hrep n
  rw [this]
  exact ⟨rfl, rfl⟩

/-- C5: an exception in workflow `w1`'s step loop is caught at the task
boundary and only `w1` is removed — `w2`'s bookkeeping and task are
untouched (conjuncts 1-3).  But the handler cancels the very task it is
running in, so that task finishes CANCELLED (conjunct 4), and
`run_all_tasks`' completed-task inspection (`if task.exception():`) then
raises `CancelledError`, aborting `run_all_tasks` itself (conjunct 5) —
contrary to the claim's final part. -/
theorem C5_exception_boundary :
    (processWorkflowException wfSys0 "w1").workflows = ["w2"] ∧
    (processWorkflowException wfSys0 "w1").taskIds = [("w2", 1)] ∧
    (processWorkflowException wfSys0 "w1").objSt 1 = some TaskSt.running ∧
    (processWorkflowException wfSys0 "w1").objSt 0 = some TaskSt.doneCancelled ∧
    runAllTasksInspectDone
        ((processWorkflowException wfSys0 "w1").objs.filterMap
          (fun o => if o.2.done then some o.2 else none)) =
      .error "CancelledError" := by
  exact ⟨rfl, rfl, rfl, rfl, rfl⟩

/-- Membership in a set-union update: `A ++ [x ∈ ids | x ∉ A]` holds the
union of `A` and `ids`. -/
theorem mem_union_append (A ids : List String) (n : String) :
    (n ∈ A ++ ids.filter (fun x => ¬ x ∈ A)) ↔ (n ∈ A ∨ n ∈ ids) := by
  simp only [List.mem_append, List.mem_filter, decide_eq_true_eq]
  tauto

/-- `QuestionNodePair.add_node_ids` associates exactly the old pairs plus
`(q0, ids)`. -/
theorem qnp_mem_add (p : QuestionNodePair) (q0 : String) (ids : List String)
    (q n : String) :
    (p.add_node_ids q0 ids).mem q n ↔ (p.mem q n ∨ (q = q0 ∧ n ∈ ids)) := by
  unfold QuestionNodePair.add_node_ids QuestionNodePair.mem
  by_cases hf : (p.question_node_map.find? (fun kv => kv.1 == q0)).isSome
  · rw [if_pos hf]
    obtain ⟨kv0, hfind⟩ := Option.isSome_iff_exists.mp hf
    have hkv0mem : kv0 ∈ p.question_node_map := List.mem_of_find?_eq_some hfind
    have hkv0q : kv0.1 = q0 := by simpa using List.find?_some hfind
    constructor
    · rintro ⟨kv, hkv, hq, hn⟩
      rcases List.mem_map.mp hkv with ⟨kv1, hkv1, rfl⟩
      by_cases hk : kv1.1 == q0
      · simp only [hk, if_true] at hq hn
        rcases (mem_union_append kv1.2 ids n).mp hn with h | h
        · exact Or.inl ⟨kv1, hkv1, hq, h⟩
        · exact Or.inr ⟨hq ▸ (by simpa using hk), h⟩
      · simp only [hk, if_false] at hq hn
        exact Or.inl ⟨kv1, hkv1, hq, hn⟩
    · rintro (⟨kv, hkv, hq, hn⟩ | ⟨rfl, hn⟩)
      · by_cases hk : kv.1 == q0
        · refine ⟨(kv.1, kv.2 ++ ids.filter (fun x => ¬ x ∈ kv.2)),
            ?_, hq, (mem_union_append kv.2 ids n).mpr (Or.inl hn)⟩
          have := List.mem_map_of_mem (fun kv => if kv.1 == q0 then
            (kv.1, kv.2 ++ ids.filter (fun x => ¬ x ∈ kv.2)) else kv) hkv
          simpa [hk] using this
        · refine ⟨kv, ?_, hq, hn⟩
          have := List.mem_map_of_mem (fun kv => if kv.1 == q0 then
            (kv.1, kv.2 ++ ids.filter (fun x => ¬ x ∈ kv.2)) else kv) hkv
          simpa [hk] using this
      · refine ⟨(kv0.1, kv0.2 ++ ids.filter (fun x => ¬ x ∈ kv0.2)),
          ?_, hkv0q, (mem_union_append kv0.2 ids n).mpr (Or.inr hn)⟩
        have := List.mem_map_of_mem (fun kv => if kv.1 == q then
          (kv.1, kv.2 ++ ids.filter (fun x => ¬ x ∈ kv.2)) else kv) hkv0mem
        simpa [show (kv0.1 == q) = true by simpa using hkv0q] using this
  · rw [if_neg hf]
    constructor
    · rintro ⟨kv, hkv, hq, hn⟩
      rcases List.mem_append.mp hkv with h | h
      · exact Or.inl ⟨kv, h, hq, hn⟩
      · rcases List.mem_singleton.mp h with rfl
        exact Or.inr ⟨hq.symm ▸ rfl, hn⟩
    · rintro (⟨kv, hkv, hq, hn⟩ | ⟨rfl, hn⟩)
      · exact ⟨kv, List.mem_append.mpr (Or.inl hkv), hq, hn⟩
      · exact ⟨(q, ids), List.mem_append.mpr (Or.inr (List.mem_singleton.mpr rfl)),
          rfl, hn⟩

/-- Folding `add_question_node_pair` over an association list merges
exactly its pairs into the base record. -/
theorem qnp_mem_foldl (l : List (String × List String)) (base : NodeMemoryItem)
    (q n : String) :
    ((l.foldl (fun acc qn => acc.add_question_node_pair qn.1 qn.2)
        base).question_node_pair.mem q n)
      ↔ (base.question_node_pair.mem q n ∨ ∃ kv ∈ l, kv.1 = q ∧ n ∈ kv.2) := by
  induction l generalizing base with
  | nil => simp
  | cons kv0 rest ih =>
      rw [List.foldl_cons, ih]
      have hbase : (base.add_question_node_pair kv0.1 kv0.2).question_node_pair
          = base.question_node_pair.add_node_ids kv0.1 kv0.2 := rfl
      rw [hbase, qnp_mem_add]
      constructor
      · rintro ((h | ⟨rfl, hn⟩) | ⟨kv, hkv, hq, hn⟩)
        · exact Or.inl h
        · exact Or.inr ⟨kv0, List.mem_cons_self kv0 rest, rfl, hn⟩
        · exact Or.inr ⟨kv, List.mem_cons_of_mem kv0 hkv, hq, hn⟩
      · rintro (h | ⟨kv, hkv, hq, hn⟩)
        · exact Or.inl (Or.inl h)
        · rcases List.mem_cons.mp hkv with rfl | hkv
          · exact Or.inl (Or.inr ⟨hq.symm, hn⟩)
          · exact Or.inr ⟨kv, hkv, hq, hn⟩

/-- A `find?` miss on the first list defers to the second. -/
theorem find?_append_of_none {α : Type} (p : α → Bool) {l1 : List α} (l2 : List α)
    (h : l1.find? p = none) : (l1 ++ l2).find? p = l2.find? p := by
  induction l1 with
  | nil => simp
  | cons a l ih =>
      by_cases hpa : p a
      · rw [List.find?_cons_of_pos _ hpa] at h
        exact absurd h (by simp)
      · rw [List.find?_cons_of_neg _ hpa] at h
        rw [List.cons_append, List.find?_cons_of_neg _ hpa]
        exact ih h


/-- `store_data` on an unseen action appends a fresh index entry. -/
theorem store_data_fresh (m : BaseMemory) (r : NodeMemoryItem)
    (h : m.action_map.find? (fun kv => kv.1 == r.action) = none) :
    (m.store_data r).action_map = m.action_map ++ [(r.action, r)] := by
  unfold BaseMemory.store_data
  rw [h]
  rfl

/-- `store_data` on a known action merges in place. -/
theorem store_data_found (m : BaseMemory) (r : NodeMemoryItem)
    (h : (m.action_map.find? (fun kv => kv.1 == r.action)).isSome = true) :
    (m.store_data r).action_map =
      m.action_map.map
        (fun kv => if kv.1 == r.action then (kv.1, mergeItem kv.2 r) else kv) := by
  unfold BaseMemory.store_data
  rw [h]
  rfl

/-- C6: storing two records with the same action string leaves exactly
one live record for that action; its question→node-ids map is the
key-wise union of the two records' maps; its timestamp is the
later-stored record's; and `store_data` never duplicates a key in the
index (distinct keys stay distinct). -/
theorem C6_store_merges_same_action
    (m : BaseMemory) (r1 r2 : NodeMemoryItem)
    (haction : r1.action = r2.action)
    (hfresh : m.action_map.find? (fun kv => kv.1 == r1.action) = none) :
    (((m.store_data r1).store_data r2).action_map.countP
        (fun kv => kv.1 == r1.action) = 1) ∧
    (∃ item,
      ((m.store_data r1).store_data r2).action_map.find?
          (fun kv => kv.1 == r1.action) = some (r1.action, item) ∧
      item.timestamp = r2.timestamp ∧
      (∀ q n, item.question_node_pair.mem q n ↔
        (r1.question_node_pair.mem q n ∨ r2.question_node_pair.mem q n))) ∧
    (∀ (mi : BaseMemory) (r : NodeMemoryItem),
      (mi.action_map.map Prod.fst).Nodup →
        ((mi.store_data r).action_map.map Prod.fst).Nodup) := by
  have hallfalse : ∀ kv ∈ m.action_map, ¬((fun kv => kv.1 == r1.action) kv = true) :=
    List.find?_eq_none.mp hfresh
  have h1 : (m.store_data r1).action_map = m.action_map ++ [(r1.action, r1)] :=
    store_data_fresh m r1 hfresh
  have hnone2 : m.action_map.find? (fun kv => kv.1 == r2.action) = none := by
    rw [List.find?_eq_none]
    intro kv hkv
    rw [← haction]
    exact hallfalse kv hkv
  have hfind2 : ((m.store_data r1).action_map.find? (fun kv => kv.1 == r2.action))
      = some (r1.action, r1) := by
    rw [h1, find?_append_of_none _ _ hnone2]
    simp [haction]
  have h2 : ((m.store_data r1).store_data r2).action_map =
      (m.action_map ++ [(r1.action, r1)]).map
        (fun kv => if kv.1 == r2.action then (kv.1, mergeItem kv.2 r2) else kv) := by
    rw [← h1]
    exact store_data_found (m.store_data r1) r2 (by rw [hfind2]; rfl)
  have hmapid : m.action_map.map
      (fun kv => if kv.1 == r2.action then (kv.1, mergeItem kv.2 r2) else kv)
        = m.action_map := by
    conv_rhs => rw [show m.action_map = m.action_map.map id from (List.map_id _).symm]
    apply List.map_congr_left
    intro kv hkv
    have hk : ¬(kv.1 == r2.action) = true := by
      rw [← haction]
      exact hallfalse kv hkv
    simp [hk]
  have hfinal : ((m.store_data r1).store_data r2).action_map =
      m.action_map ++ [(r1.action, mergeItem r1 r2)] := by
    rw [h2, List.map_append, hmapid]
    simp [haction]
  refine ⟨?_, ?_, ?_⟩
  · rw [hfinal, List.countP_append, List.countP_eq_zero.mpr hallfalse]
    simp
  · refine ⟨mergeItem r1 r2, ?_, rfl, ?_⟩
    · rw [hfinal, find?_append_of_none _ _ hfresh]
      simp
    · intro q n
      have hq : (mergeItem r1 r2).question_node_pair =
          (r2.question_node_pair.question_node_map.foldl
            (fun acc qn => acc.add_question_node_pair qn.1 qn.2) r1).question_node_pair := rfl
      rw [hq, qnp_mem_foldl]
      exact Iff.rfl
  · intro mi r hnodup
    by_cases hf : (mi.action_map.find? (fun kv => kv.1 == r.action)).isSome
    · rw [store_data_found mi r hf, List.map_map]
      have hcomp : (Prod.fst ∘ fun kv =>
          if kv.1 == r.action then (kv.1, mergeItem kv.2 r) else kv)
            = (Prod.fst : String × NodeMemoryItem → String) := by
        funext kv
        by_cases hk : kv.1 = r.action <;> simp [hk]
      rw [hcomp]
      exact hnodup
    · have hnone : mi.action_map.find? (fun kv => kv.1 == r.action) = none := by
        cases hx : mi.action_map.find? (fun kv => kv.1 == r.action) with
        | none => rfl
        | some v => rw [hx] at hf; simp at hf
      rw [store_data_fresh mi r hnone, List.map_append, List.nodup_append]
      refine ⟨hnodup, by simp, ?_⟩
      intro a ha hb
      simp only [List.map_cons, List.map_nil, List.mem_singleton] at hb
      subst hb
      rcases List.mem_map.mp ha with ⟨kv, hkv, hkeq⟩
      have hcontra := List.find?_eq_none.mp hnone kv hkv
      simp only [hkeq] at hcontra
      simp at hcontra

/-- C6 witness: storing `itemC6a` then `itemC6b` (same action, disjoint
questions) yields one record whose question set is the union and whose
timestamp is `itemC6b`'s. -/
theorem C6_witness :
    ∃ item,
      ((((⟨[], []⟩ : BaseMemory).store_data itemC6a).store_data itemC6b).action_map.find?
          (fun kv => kv.1 == itemC6a.action)) = some (itemC6a.action, item) ∧
      item.timestamp = itemC6b.timestamp ∧
      (∀ q n, item.question_node_pair.mem q n ↔
        (itemC6a.question_node_pair.mem q n ∨ itemC6b.question_node_pair.mem q n)) :=
  (C6_store_merges_same_action ⟨[], []⟩ itemC6a itemC6b rfl rfl).2.1

/-- `entryLe` spelled out. -/
theorem entryLe_iff (a b : Int × String) :
    entryLe a b = true ↔ (a.1 < b.1 ∨ (a.1 = b.1 ∧ a.2 ≤ b.2)) := by
  simp [entryLe]

/-- `entryLe` is reflexive. -/
theorem entryLe_refl (a : Int × String) : entryLe a a = true := by
  simp [entryLe_iff]

/-- `entryLe` is transitive. -/
theorem entryLe_trans {a b c : Int × String} (h1 : entryLe a b = true)
    (h2 : entryLe b c = true) : entryLe a c = true := by
  rw [entryLe_iff] at h1 h2 ⊢
  rcases h1 with h1 | ⟨h1e, h1s⟩
  · rcases h2 with h2 | ⟨h2e, _⟩
    · exact Or.inl (lt_trans h1 h2)
    · exact Or.inl (h2e ▸ h1)
  · rcases h2 with h2 | ⟨h2e, h2s⟩
    · exact Or.inl (h1e ▸ h2)
    · exact Or.inr ⟨h1e.trans h2e, le_trans h1s h2s⟩

/-- `entryLe` is total. -/
theorem entryLe_total (a b : Int × String) :
    entryLe a b = true ∨ entryLe b a = true := by
  rw [entryLe_iff, entryLe_iff]
  rcases lt_trichotomy a.1 b.1 with h | h | h
  · exact Or.inl (Or.inl h)
  · rcases le_total a.2 b.2 with hs | hs
    · exact Or.inl (Or.inr ⟨h, hs⟩)
    · exact Or.inr (Or.inr ⟨h.symm, hs⟩)
  · exact Or.inr (Or.inl h)

/-- The two-way minimum is below its left argument. -/
theorem entryMin_le_left (a b : Int × String) : entryLe (entryMin a b) a = true := by
  unfold entryMin
  by_cases h : entryLe a b = true
  · simpa [h] using entryLe_refl a
  · simp only [h, if_false]
    rcases entryLe_total a b with h2 | h2
    · exact absurd h2 h
    · exact h2

/-- The two-way minimum is below its right argument. -/
theorem entryMin_le_right (a b : Int × String) : entryLe (entryMin a b) b = true := by
  unfold entryMin
  by_cases h : entryLe a b = true
  · simpa [h] using h
  · simp [h, entryLe_refl]

/-- The running fold of `entryMin` is below its initial value. -/
theorem foldl_entryMin_le_init :
    ∀ (xs : List (Int × String)) (x : Int × String),
      entryLe (xs.foldl entryMin x) x = true := by
  intro xs
  induction xs with
  | nil => intro x; exact entryLe_refl x
  | cons y ys ih =>
      intro x
      rw [List.foldl_cons]
      exact entryLe_trans (ih (entryMin x y)) (entryMin_le_left x y)

/-- The running fold of `entryMin` is below every list element. -/
theorem foldl_entryMin_le_mem :
    ∀ (xs : List (Int × String)) (x y : Int × String),
      y ∈ xs → entryLe (xs.foldl entryMin x) y = true := by
  intro xs
  induction xs with
  | nil => intro x y h; cases h
  | cons z zs ih =>
      intro x y hy
      rw [List.foldl_cons]
      rcases List.mem_cons.mp hy with rfl | hy
      · exact entryLe_trans (foldl_entryMin_le_init zs (entryMin x y))
          (entryMin_le_right x y)
      · exact ih (entryMin x z) y hy

/-- The fold of `entryMin` is the initial value or a list element. -/
theorem foldl_entryMin_mem :
    ∀ (xs : List (Int × String)) (x : Int × String),
      xs.foldl entryMin x = x ∨ xs.foldl entryMin x ∈ xs := by
  intro xs
  induction xs with
  | nil => intro x; exact Or.inl rfl
  | cons y ys ih =>
      intro x
      rw [List.foldl_cons]
      rcases ih (entryMin x y) with h | h
      · by_cases hle : entryLe x y = true
        · exact Or.inl (by simpa [entryMin, hle] using h)
        · exact Or.inr (List.mem_cons.mpr (Or.inl (by simpa [entryMin, hle] using h)))
      · exact Or.inr (List.mem_cons.mpr (Or.inr h))

/-- `heapq.heappop` returns the least entry of the heap. -/
theorem heapMin_le {l : List (Int × String)} {e : Int × String}
    (h : heapMin l = some e) : ∀ x ∈ l, entryLe e x = true := by
  cases l with
  | nil => simp [heapMin] at h
  | cons a as =>
      simp only [heapMin, Option.some.injEq] at h
      subst h
      intro x hx
      rcases List.mem_cons.mp hx with rfl | hx
      · exact foldl_entryMin_le_init as x
      · exact foldl_entryMin_le_mem as a x hx

/-- The popped entry is an element of the heap. -/
theorem heapMin_mem {l : List (Int × String)} {e : Int × String}
    (h : heapMin l = some e) : e ∈ l := by
  cases l with
  | nil => simp [heapMin] at h
  | cons a as =>
      simp only [heapMin, Option.some.injEq] at h
      rcases foldl_entryMin_mem as a with h2 | h2
      · exact List.mem_cons.mpr (Or.inl (by rw [← h, h2]))
      · exact List.mem_cons.mpr (Or.inr (by rw [← h]; exact h2))

/-- The in-place item update of a successful refresh never introduces an
index entry for an absent action. -/
theorem find?_key_none_map {amap : List (String × NodeMemoryItem)} {a c : String}
    (item' : NodeMemoryItem)
    (h : amap.find? (fun kv => kv.1 == a) = none) :
    (amap.map (fun kv' => if kv'.1 == c then (kv'.1, item') else kv')).find?
      (fun kv => kv.1 == a) = none := by
  rw [List.find?_eq_none] at h ⊢
  intro kv hkv
  rcases List.mem_map.mp hkv with ⟨kv0, hkv0, rfl⟩
  by_cases hk : (kv0.1 == c) = true
  · simpa [hk] using h kv0 hkv0
  · simpa [hk] using h kv0 hkv0

/-- Every popped entry of the drain loop is an element of the queue it
started with. -/
theorem refreshDrainGo_entries_mem (proc : RefreshOracle) :
    ∀ (fuel : Nat) (store : List (Int × String))
      (amap : List (String × NodeMemoryItem)),
      ∀ ev ∈ (refreshDrainGo proc fuel store amap).1, PopEvent.entry ev ∈ store := by
  intro fuel
  induction fuel with
  | zero =>
      intro store amap ev hev
      simp [refreshDrainGo] at hev
  | succ n ih =>
      intro store amap ev hev
      cases hmin : heapMin store with
      | none => simp [refreshDrainGo, hmin] at hev
      | some e =>
          have hmem := heapMin_mem hmin
          have herase : ∀ x ∈ store.erase e, x ∈ store := fun x hx =>
            List.erase_subset e store hx
          cases hfind2 : amap.find? (fun kv => kv.1 == e.2) with
          | none =>
              simp only [refreshDrainGo, hmin, hfind2] at hev
              rcases List.mem_cons.mp hev with rfl | hev
              · exact hmem
              · exact herase _ (ih _ _ _ hev)
          | some kv =>
              cases hproc : proc e.2 kv.2 with
              | none =>
                  simp only [refreshDrainGo, hmin, hfind2, hproc] at hev
                  rcases List.mem_cons.mp hev with rfl | hev
                  · exact hmem
                  · exact herase _ (ih _ _ _ hev)
              | some item2 =>
                  simp only [refreshDrainGo, hmin, hfind2, hproc] at hev
                  rcases List.mem_cons.mp hev with rfl | hev
                  · exact hmem
                  · exact herase _ (ih _ _ _ hev)

/-- The head of the remaining trace is bounded below by the entry just
popped. -/
theorem refreshDrainGo_head_ge (proc : RefreshOracle) (n : Nat)
    (store : List (Int × String)) (amap : List (String × NodeMemoryItem))
    {e : Int × String} (hmin : heapMin store = some e) :
    ∀ b ∈ ((refreshDrainGo proc n (store.erase e) amap).1.map PopEvent.entry).head?,
      entryLe e b = true := by
  intro b hb
  have hbmem : b ∈ (refreshDrainGo proc n (store.erase e) amap).1.map PopEvent.entry :=
    List.mem_of_mem_head? hb
  rcases List.mem_map.mp hbmem with ⟨ev, hev, rfl⟩
  exact heapMin_le hmin _
    (List.erase_subset e store (refreshDrainGo_entries_mem proc n _ amap ev hev))

/-- The drain loop pops entries in non-decreasing `entryLe` order. -/
theorem refreshDrainGo_chain (proc : RefreshOracle) :
    ∀ (fuel : Nat) (store : List (Int × String))
      (amap : List (String × NodeMemoryItem)),
      ((refreshDrainGo proc fuel store amap).1.map PopEvent.entry).Chain'
        (fun a b => entryLe a b = true) := by
  intro fuel
  induction fuel with
  | zero =>
      intro store amap
      simp [refreshDrainGo]
  | succ n ih =>
      intro store amap
      cases hmin : heapMin store with
      | none => simp [refreshDrainGo, hmin]
      | some e =>
          cases hfind2 : amap.find? (fun kv => kv.1 == e.2) with
          | none =>
              simp only [refreshDrainGo, hmin, hfind2, List.map_cons]
              exact List.chain'_cons'.mpr
                ⟨refreshDrainGo_head_ge proc n store amap hmin, ih _ _⟩
          | some kv =>
              cases hproc : proc e.2 kv.2 with
              | none =>
                  simp only [refreshDrainGo, hmin, hfind2, hproc, List.map_cons]
                  exact List.chain'_cons'.mpr
                    ⟨refreshDrainGo_head_ge proc n store amap hmin, ih _ _⟩
              | some item2 =>
                  simp only [refreshDrainGo, hmin, hfind2, hproc, List.map_cons]
                  exact List.chain'_cons'.mpr
                    ⟨refreshDrainGo_head_ge proc n store
                      (amap.map (fun kv' =>
                        if kv'.1 == e.2 then (kv'.1, item2) else kv')) hmin,
                     ih _ _⟩

/-- An action whose record is absent from the index when the refresh
starts is only ever skipped: the loop never processes it (the index
gains no keys during the drain). -/
theorem refreshDrainGo_skips (proc : RefreshOracle) :
    ∀ (fuel : Nat) (store : List (Int × String))
      (amap : List (String × NodeMemoryItem)) (a : String),
      amap.find? (fun kv => kv.1 == a) = none →
      ∀ ev ∈ (refreshDrainGo proc fuel store amap).1,
        (PopEvent.entry ev).2 = a → ev = .skipped (PopEvent.entry ev) := by
  intro fuel
  induction fuel with
  | zero =>
      intro store amap a hnone ev hev
      simp [refreshDrainGo] at hev
  | succ n ih =>
      intro store amap a hnone ev hev heva
      cases hmin : heapMin store with
      | none => simp [refreshDrainGo, hmin] at hev
      | some e =>
          cases hfind2 : amap.find? (fun kv => kv.1 == e.2) with
          | none =>
              simp only [refreshDrainGo, hmin, hfind2] at hev
              rcases List.mem_cons.mp hev with rfl | hev
              · rfl
              · exact ih _ _ a hnone ev hev heva
          | some kv =>
              cases hproc : proc e.2 kv.2 with
              | none =>
                  simp only [refreshDrainGo, hmin, hfind2, hproc] at hev
                  rcases List.mem_cons.mp hev with rfl | hev
                  · exfalso
                    rw [show (PopEvent.entry (.failed e)).2 = e.2 from rfl] at heva
                    rw [heva, hnone] at hfind2
                    exact Option.noConfusion hfind2
                  · exact ih _ _ a hnone ev hev heva
              | some item2 =>
                  simp only [refreshDrainGo, hmin, hfind2, hproc] at hev
                  rcases List.mem_cons.mp hev with rfl | hev
                  · exfalso
                    rw [show (PopEvent.entry (.succeeded e (-item2.timestamp, e.2))).2
                          = e.2 from rfl] at heva
                    rw [heva, hnone] at hfind2
                    exact Option.noConfusion hfind2
                  · exact ih _ _ a (find?_key_none_map item2 hnone) ev hev heva

/-- C7: the refresh drains the queue in non-increasing recency order
(the queue keys are `-timestamp`, so non-decreasing first components
mean timestamps never increase along the trace — the most recent entry
is processed first); a popped entry whose action is no longer in the
index is skipped; and the queue left behind consists exactly of the
`(-new_timestamp, action)` entries of the successfully processed pops,
reinserted before returning. -/
theorem C7_refresh_order_skip_reinsert (proc : RefreshOracle) (m : BaseMemory) :
    (((m.refresh_all_items proc).2.map PopEvent.entry).Chain'
        (fun a b => a.1 ≤ b.1)) ∧
    (∀ a, m.action_map.find? (fun kv => kv.1 == a) = none →
      ∀ ev ∈ (m.refresh_all_items proc).2, (PopEvent.entry ev).2 = a →
        ev = PopEvent.skipped (PopEvent.entry ev)) ∧
    ((m.refresh_all_items proc).1.memory_store =
      (m.refresh_all_items proc).2.filterMap PopEvent.reinserted?) := by
  refine ⟨?_, ?_, rfl⟩
  · have h := refreshDrainGo_chain proc m.memory_store.length m.memory_store m.action_map
    exact List.Chain'.imp (fun a b hab => by
      rcases (entryLe_iff a b).mp hab with h2 | ⟨h2, _⟩
      · exact le_of_lt h2
      · exact le_of_eq h2) h
  · intro a ha ev hev heva
    exact refreshDrainGo_skips proc m.memory_store.length m.memory_store
      m.action_map a ha ev hev heva

/-- The strict-improvement fold of `most_common` keeps the EARLIEST
maximum: it splits its input into a strictly-smaller prefix, the kept
element, and a no-larger remainder. -/
theorem foldl_argmax_first {α : Type} (f : α → Nat) :
    ∀ (ks : List α) (k : α),
      ∃ l1 l2,
        k :: ks = l1 ++ (ks.foldl (fun best s => if f s > f best then s else best) k) :: l2 ∧
        (∀ x ∈ l1, f x < f (ks.foldl (fun best s => if f s > f best then s else best) k)) ∧
        (∀ x ∈ k :: ks, f x ≤ f (ks.foldl (fun best s => if f s > f best then s else best) k)) := by
  intro ks
  induction ks with
  | nil =>
      intro k
      refine ⟨[], [], rfl, by simp, ?_⟩
      intro x hx
      rcases List.mem_singleton.mp hx with rfl
      exact le_refl _
  | cons s rest ih =>
      intro k
      rw [List.foldl_cons]
      by_cases hgt : f s > f k
      · rw [if_pos hgt]
        obtain ⟨l1, l2, hdec, hlt, hle⟩ := ih s
        refine ⟨k :: l1, l2, ?_, ?_, ?_⟩
        · rw [List.cons_append, ← hdec]
        · intro x hx
          rcases List.mem_cons.mp hx with rfl | hx
          · exact lt_of_lt_of_le hgt (hle s (List.mem_cons_self s rest))
          · exact hlt x hx
        · intro x hx
          rcases List.mem_cons.mp hx with rfl | hx
          · exact le_of_lt (lt_of_lt_of_le hgt (hle s (List.mem_cons_self s rest)))
          · exact hle x hx
      · rw [if_neg hgt]
        have hsk : f s ≤ f k := Nat.le_of_not_lt hgt
        obtain ⟨l1, l2, hdec, hlt, hle⟩ := ih k
        cases l1 with
        | nil =>
            simp only [List.nil_append] at hdec
            obtain ⟨hk, hl2⟩ : k = rest.foldl
                (fun best s => if f s > f best then s else best) k ∧ rest = l2 := by
              simpa using hdec
            refine ⟨[], s :: rest, ?_, by simp, ?_⟩
            · rw [List.nil_append, ← hk]
            · intro x hx
              rcases List.mem_cons.mp hx with rfl | hx
              · exact hle x (List.mem_cons_self x rest)
              · rcases List.mem_cons.mp hx with rfl | hx
                · exact le_trans hsk (hle k (List.mem_cons_self k rest))
                · exact hle x (List.mem_cons_of_mem k hx)
        | cons a l1' =>
            obtain ⟨hka, hrest⟩ : k = a ∧ rest = l1' ++ rest.foldl
                (fun best s => if f s > f best then s else best) k :: l2 := by
              simpa using hdec
            refine ⟨k :: s :: l1', l2, ?_, ?_, ?_⟩
            · rw [show k :: s :: rest = k :: s :: (l1' ++ rest.foldl
                  (fun best s => if f s > f best then s else best) k :: l2) by rw [← hrest]]
              simp
            · intro x hx
              rcases List.mem_cons.mp hx with rfl | hx
              · exact hka ▸ hlt a (List.mem_cons_self a l1')
              · rcases List.mem_cons.mp hx with rfl | hx
                · exact lt_of_le_of_lt hsk (hka ▸ hlt a (List.mem_cons_self a l1'))
                · exact hlt x (List.mem_cons_of_mem a hx)
            · intro x hx
              rcases List.mem_cons.mp hx with rfl | hx
              · exact hle x (List.mem_cons_self x rest)
              · rcases List.mem_cons.mp hx with rfl | hx
                · exact le_trans hsk (hle k (List.mem_cons_self k rest))
                · exact hle x (List.mem_cons_of_mem k hx)

/-- `counterKeys` holds exactly the elements of its input. -/
theorem mem_counterKeys {α : Type} [DecidableEq α] (l : List α) (x : α) :
    x ∈ counterKeys l ↔ x ∈ l := by
  have hgen : ∀ (l : List α) (acc : List α),
      x ∈ l.foldl (fun acc s => if s ∈ acc then acc else acc ++ [s]) acc ↔
        (x ∈ acc ∨ x ∈ l) := by
    intro l
    induction l with
    | nil => intro acc; simp
    | cons a as ih =>
        intro acc
        rw [List.foldl_cons, ih]
        by_cases ha : a ∈ acc
        · rw [if_pos ha]
          constructor
          · rintro (h | h)
            · exact Or.inl h
            · exact Or.inr (List.mem_cons_of_mem a h)
          · rintro (h | h)
            · exact Or.inl h
            · rcases List.mem_cons.mp h with rfl | h
              · exact Or.inl ha
              · exact Or.inr h
        · rw [if_neg ha]
          constructor
          · rintro (h | h)
            · rcases List.mem_append.mp h with h | h
              · exact Or.inl h
              · exact Or.inr (List.mem_cons.mpr
                  (Or.inl (List.mem_singleton.mp h)))
            · exact Or.inr (List.mem_cons_of_mem a h)
          · rintro (h | h)
            · exact Or.inl (List.mem_append.mpr (Or.inl h))
            · rcases List.mem_cons.mp h with rfl | h
              · exact Or.inl (List.mem_append.mpr
                  (Or.inr (List.mem_singleton.mpr rfl)))
              · exact Or.inr h
  rw [counterKeys, hgen]
  simp

/-- `Counter(l).most_common(1)`: the returned key occurs in `l`, has
maximal multiplicity, and every key whose first occurrence precedes it
has strictly smaller multiplicity (first-occurrence tie-break). -/
theorem mostCommon1_spec {α : Type} [DecidableEq α] (l : List α) (hne : l ≠ []) :
    ∃ w, mostCommon1 l = some w ∧ w ∈ l ∧
      (∀ s ∈ l, l.count s ≤ l.count w) ∧
      (∃ l1 l2, counterKeys l = l1 ++ w :: l2 ∧
        ∀ s ∈ l1, l.count s < l.count w) := by
  obtain ⟨a, ha⟩ := List.exists_mem_of_ne_nil l hne
  have hkeysne : counterKeys l ≠ [] := by
    intro h
    have := (mem_counterKeys l a).mpr ha
    rw [h] at this
    exact absurd this (List.not_mem_nil a)
  cases hkeys : counterKeys l with
  | nil => exact absurd hkeys hkeysne
  | cons k ks =>
      obtain ⟨l1, l2, hdec, hlt, hle⟩ := foldl_argmax_first (l.count) ks k
      refine ⟨ks.foldl (fun best s => if l.count s > l.count best then s else best) k,
        ?_, ?_, ?_, ⟨l1, l2, hdec, hlt⟩⟩
      · unfold mostCommon1
        rw [hkeys]
      · have : ks.foldl (fun best s => if l.count s > l.count best then s else best) k
            ∈ k :: ks := by
          rw [hdec]
          exact List.mem_append.mpr (Or.inr (List.mem_cons_self _ _))
        rw [← hkeys] at this
        exact (mem_counterKeys l _).mp this
      · intro s hs
        have hsk : s ∈ k :: ks := by
          rw [← hkeys]
          exact (mem_counterKeys l s).mpr hs
        exact hle s hsk

/-- Stable insertion produces a permutation. -/
theorem insertByLen_perm (x : String) :
    ∀ (l : List String), (insertByLen x l).Perm (x :: l) := by
  intro l
  induction l with
  | nil => exact List.Perm.refl _
  | cons y ys ih =>
      unfold insertByLen
      by_cases h : y.length < x.length
      · rw [if_pos h]
        exact (ih.cons y).trans (List.Perm.swap x y ys)
      · rw [if_neg h]

/-- `sortByLen` permutes its input. -/
theorem sortByLen_perm (l : List String) : (sortByLen l).Perm l := by
  induction l with
  | nil => exact List.Perm.refl _
  | cons a as ih =>
      unfold sortByLen
      rw [List.foldr_cons]
      exact (insertByLen_perm a _).trans (ih.cons a)

/-- Stable insertion preserves sortedness by length. -/
theorem insertByLen_sorted (x : String) :
    ∀ (l : List String), l.Sorted (fun a b => a.length ≤ b.length) →
      (insertByLen x l).Sorted (fun a b => a.length ≤ b.length) := by
  intro l
  induction l with
  | nil =>
      intro _
      simp [insertByLen, List.sorted_singleton]
  | cons y ys ih =>
      intro hs
      rw [List.sorted_cons] at hs
      unfold insertByLen
      by_cases h : y.length < x.length
      · rw [if_pos h]
        rw [List.sorted_cons]
        refine ⟨?_, ih hs.2⟩
        intro b hb
        have : b ∈ x :: ys := (insertByLen_perm x ys).mem_iff.mp hb
        rcases List.mem_cons.mp this with rfl | hbys
        · exact le_of_lt h
        · exact hs.1 b hbys
      · rw [if_neg h]
        rw [List.sorted_cons]
        refine ⟨?_, List.sorted_cons.mpr hs⟩
        intro b hb
        rcases List.mem_cons.mp hb with rfl | hbys
        · exact Nat.le_of_not_lt h
        · exact le_trans (Nat.le_of_not_lt h) (hs.1 b hbys)

/-- `sortByLen` sorts by length. -/
theorem sortByLen_sorted (l : List String) :
    (sortByLen l).Sorted (fun a b => a.length ≤ b.length) := by
  induction l with
  | nil => simp [sortByLen]
  | cons a as ih =>
      unfold sortByLen
      rw [List.foldr_cons]
      exact insertByLen_sorted a _ ih

/-- C8 counterexample: with sampled outputs `["A", "BB", "CCC"]` parsing
to tools `"Foo"`, `"foo"`, `"Foo"` (all with empty argument dicts), the
source — which does NOT lower-case the tool name — sees signatures
`Foo, foo, Foo`, elects `Foo` and returns `"CCC"`; the claim's
lower-cased-tool signature would merge all three into one group of
`foo` and return the median-length `"BB"`.  The claimed selection rule
therefore differs from the code on this input. -/
theorem C8_counterexample :
    select_final_output parseC8 ["A", "BB", "CCC"] = .ok "CCC" ∧
    selectFinalOutputClaimed parseC8 ["A", "BB", "CCC"] = .ok "BB" ∧
    ("CCC" : String) ≠ "BB" := by
  refine ⟨rfl, rfl, by decide⟩

/-- C8 amended: `select_final_output` discards the outputs whose
signature extraction raises, elects the most frequent signature (built
from the parser's tool name used case-sensitively, plus the canonical
set of lower-cased argument pairs) with ties broken by first
occurrence, and returns the element at index `length / 2` of the
stable-by-length-sorted list of outputs bearing the winning
signature. -/
theorem C8_amended_vote_median (parse : ParseFn) (outputs : List String)
    (hvalid : validPairs parse outputs ≠ []) :
    ∃ w,
      mostCommon1 ((validPairs parse outputs).map Prod.snd) = some w ∧
      w ∈ (validPairs parse outputs).map Prod.snd ∧
      (∀ s ∈ (validPairs parse outputs).map Prod.snd,
        ((validPairs parse outputs).map Prod.snd).count s ≤
          ((validPairs parse outputs).map Prod.snd).count w) ∧
      (∃ l1 l2,
        counterKeys ((validPairs parse outputs).map Prod.snd) = l1 ++ w :: l2 ∧
        ∀ s ∈ l1, ((validPairs parse outputs).map Prod.snd).count s <
          ((validPairs parse outputs).map Prod.snd).count w) ∧
      matchedOutputs parse outputs w ≠ [] ∧
      (sortByLen (matchedOutputs parse outputs w)).Perm
        (matchedOutputs parse outputs w) ∧
      (sortByLen (matchedOutputs parse outputs w)).Sorted
        (fun a b => a.length ≤ b.length) ∧
      select_final_output parse outputs =
        .ok ((sortByLen (matchedOutputs parse outputs w)).getD
          ((sortByLen (matchedOutputs parse outputs w)).length / 2) "") := by
  have hsigsne : (validPairs parse outputs).map Prod.snd ≠ [] := by
    intro h
    exact hvalid (List.map_eq_nil.mp h)
  obtain ⟨w, hmc, hwmem, hmax, htie⟩ :=
    mostCommon1_spec ((validPairs parse outputs).map Prod.snd) hsigsne
  have hmatchedne : matchedOutputs parse outputs w ≠ [] := by
    rcases List.mem_map.mp hwmem with ⟨p, hp, hpw⟩
    have hpf : p ∈ (validPairs parse outputs).filter (fun q => q.2 == w) := by
      rw [List.mem_filter]
      exact ⟨hp, by simp [hpw]⟩
    have : p.1 ∈ matchedOutputs parse outputs w :=
      List.mem_map_of_mem Prod.fst hpf
    exact List.ne_nil_of_mem this
  have houtne : outputs ≠ [] := by
    intro h
    apply hvalid
    rw [h]
    rfl
  refine ⟨w, hmc, hwmem, hmax, htie, hmatchedne, sortByLen_perm _, sortByLen_sorted _, ?_⟩
  unfold select_final_output
  rw [if_neg (by simpa using houtne)]
  rw [if_neg (by simpa using hvalid)]
  simp only [hmc]
  rw [if_neg (by simpa using hmatchedne)]

/-- C8 amended witness: on `["A", "BB", "CCC"]` with `parseC8` the
winning signature exists and the selection equals the sorted-median
formula. -/
theorem C8_amended_witness :
    ∃ w,
      mostCommon1 ((validPairs parseC8 ["A", "BB", "CCC"]).map Prod.snd) = some w ∧
      w ∈ (validPairs parseC8 ["A", "BB", "CCC"]).map Prod.snd ∧
      (∀ s ∈ (validPairs parseC8 ["A", "BB", "CCC"]).map Prod.snd,
        ((validPairs parseC8 ["A", "BB", "CCC"]).map Prod.snd).count s ≤
          ((validPairs parseC8 ["A", "BB", "CCC"]).map Prod.snd).count w) ∧
      (∃ l1 l2,
        counterKeys ((validPairs parseC8 ["A", "BB", "CCC"]).map Prod.snd) =
          l1 ++ w :: l2 ∧
        ∀ s ∈ l1, ((validPairs parseC8 ["A", "BB", "CCC"]).map Prod.snd).count s <
          ((validPairs parseC8 ["A", "BB", "CCC"]).map Prod.snd).count w) ∧
      matchedOutputs parseC8 ["A", "BB", "CCC"] w ≠ [] ∧
      (sortByLen (matchedOutputs parseC8 ["A", "BB", "CCC"] w)).Perm
        (matchedOutputs parseC8 ["A", "BB", "CCC"] w) ∧
      (sortByLen (matchedOutputs parseC8 ["A", "BB", "CCC"] w)).Sorted
        (fun a b => a.length ≤ b.length) ∧
      select_final_output parseC8 ["A", "BB", "CCC"] =
        .ok ((sortByLen (matchedOutputs parseC8 ["A", "BB", "CCC"] w)).getD
          ((sortByLen (matchedOutputs parseC8 ["A", "BB", "CCC"] w)).length / 2) "") :=
  C8_amended_vote_median parseC8 ["A", "BB", "CCC"] (by decide)

/-- One loop iteration conserves `total_attempt + remaining_fixes`:
a repair call moves one unit from the budget to the call counter,
everything else touches neither. -/
theorem sctStep_budget (parseOk : String → Bool) (fixFn : String → String)
    (fixing_num : Nat) (s : SctState) (i : Nat) :
    (sctStep parseOk fixFn fixing_num s i).totalCalls +
        (sctStep parseOk fixFn fixing_num s i).remaining =
      s.totalCalls + s.remaining := by
  unfold sctStep
  cases hget : s.tasks.get? i with
  | none => rfl
  | some t =>
      simp only []
      by_cases hdone : t.done = true
      · rw [if_pos hdone]
      · rw [if_neg hdone]
        by_cases hc : t.attempt < fixing_num ∧ 0 < s.remaining
        · rw [if_pos hc]
          by_cases hp : parseOk t.output = true
          · rw [if_pos hp]
          · rw [if_neg hp]
            have h0 : 0 < s.remaining := hc.2
            simp only
            omega
        · rw [if_neg hc]

/-- The conservation law extends to any schedule. -/
theorem sctRun_budget (parseOk : String → Bool) (fixFn : String → String)
    (fixing_num : Nat) :
    ∀ (sched : List Nat) (s : SctState),
      (sctRun parseOk fixFn fixing_num s sched).totalCalls +
          (sctRun parseOk fixFn fixing_num s sched).remaining =
        s.totalCalls + s.remaining := by
  intro sched
  induction sched with
  | nil => intro s; rfl
  | cons i is ih =>
      intro s
      unfold sctRun at ih ⊢
      rw [List.foldl_cons]
      rw [ih (sctStep parseOk fixFn fixing_num s i)]
      exact sctStep_budget parseOk fixFn fixing_num s i

/-- One loop iteration keeps every per-output attempt counter at or
below `fixing_num`. -/
theorem sctStep_attempt_inv (parseOk : String → Bool) (fixFn : String → String)
    (fixing_num : Nat) (s : SctState) (i : Nat)
    (h : ∀ t ∈ s.tasks, t.attempt ≤ fixing_num) :
    ∀ t ∈ (sctStep parseOk fixFn fixing_num s i).tasks, t.attempt ≤ fixing_num := by
  unfold sctStep
  cases hget : s.tasks.get? i with
  | none => exact h
  | some t =>
      simp only []
      have htmem : t ∈ s.tasks := List.get?_mem hget
      by_cases hdone : t.done = true
      · rw [if_pos hdone]
        exact h
      · rw [if_neg hdone]
        by_cases hc : t.attempt < fixing_num ∧ 0 < s.remaining
        · rw [if_pos hc]
          by_cases hp : parseOk t.output = true
          · rw [if_pos hp]
            intro u hu
            rcases List.mem_or_eq_of_mem_set hu with hu | rfl
            · exact h u hu
            · exact h t htmem
          · rw [if_neg hp]
            intro u hu
            rcases List.mem_or_eq_of_mem_set hu with hu | rfl
            · exact h u hu
            · exact hc.1
        · rw [if_neg hc]
          intro u hu
          rcases List.mem_or_eq_of_mem_set hu with hu | rfl
          · exact h u hu
          · exact h t htmem

/-- The attempt bound extends to any schedule. -/
theorem sctRun_attempt_inv (parseOk : String → Bool) (fixFn : String → String)
    (fixing_num : Nat) :
    ∀ (sched : List Nat) (s : SctState),
      (∀ t ∈ s.tasks, t.attempt ≤ fixing_num) →
      ∀ t ∈ (sctRun parseOk fixFn fixing_num s sched).tasks, t.attempt ≤ fixing_num := by
  intro sched
  induction sched with
  | nil => intro s h; exact h
  | cons i is ih =>
      intro s h
      unfold sctRun at ih ⊢
      rw [List.foldl_cons]
      exact ih _ (sctStep_attempt_inv parseOk fixFn fixing_num s i h)

/-- Replacing one element by one of smaller weight strictly decreases
the weighted sum. -/
theorem sum_map_set_lt (f : FixTask → Nat) :
    ∀ (l : List FixTask) (i : Nat) (t x : FixTask),
      l.get? i = some t → f x < f t →
      ((l.set i x).map f).sum < (l.map f).sum := by
  intro l
  induction l with
  | nil =>
      intro i t x h
      simp at h
  | cons a as ih =>
      intro i t x hget hlt
      cases i with
      | zero =>
          simp only [List.get?] at hget
          cases hget
          simp only [List.set, List.map_cons, List.sum_cons]
          exact Nat.add_lt_add_right hlt _
      | succ n =>
          simp only [List.get?] at hget
          simp only [List.set, List.map_cons, List.sum_cons]
          exact Nat.add_lt_add_left (ih n t x hget hlt) _

/-- With the shared budget exhausted, an iteration never makes a repair
call (the call counter cannot move). -/
theorem sctStep_no_call_when_exhausted (parseOk : String → Bool)
    (fixFn : String → String) (fixing_num : Nat) (s : SctState) (i : Nat)
    (h : s.remaining = 0) :
    (sctStep parseOk fixFn fixing_num s i).totalCalls = s.totalCalls := by
  unfold sctStep
  cases hget : s.tasks.get? i with
  | none => rfl
  | some t =>
      simp only []
      by_cases hdone : t.done = true
      · rw [if_pos hdone]
      · rw [if_neg hdone]
        have hc : ¬(t.attempt < fixing_num ∧ 0 < s.remaining) := by
          rintro ⟨-, h2⟩
          omega
        rw [if_neg hc]

/-- Any state-changing iteration strictly decreases the repair measure,
so every run of the loop terminates. -/
theorem sctStep_measure_lt (parseOk : String → Bool) (fixFn : String → String)
    (fixing_num : Nat) (s : SctState) (i : Nat)
    (hatt : ∀ t ∈ s.tasks, t.attempt ≤ fixing_num)
    (hne : sctStep parseOk fixFn fixing_num s i ≠ s) :
    sctMeasure fixing_num (sctStep parseOk fixFn fixing_num s i) <
      sctMeasure fixing_num s := by
  unfold sctStep at hne ⊢
  cases hget : s.tasks.get? i with
  | none =>
      rw [hget] at hne
      exact absurd rfl hne
  | some t =>
      rw [hget] at hne
      simp only [] at hne ⊢
      have htmem : t ∈ s.tasks := List.get?_mem hget
      have htle : t.attempt ≤ fixing_num := hatt t htmem
      by_cases hdone : t.done = true
      · rw [if_pos hdone] at hne
        exact absurd rfl hne
      · rw [if_neg hdone] at hne ⊢
        by_cases hc : t.attempt < fixing_num ∧ 0 < s.remaining
        · rw [if_pos hc] at hne ⊢
          obtain ⟨hc1, hc2⟩ := hc
          by_cases hp : parseOk t.output = true
          · rw [if_pos hp] at hne ⊢
            unfold sctMeasure
            apply sum_map_set_lt _ s.tasks i t _ hget
            simp [hdone]
            omega
          · rw [if_neg hp] at hne ⊢
            unfold sctMeasure
            apply sum_map_set_lt _ s.tasks i t _ hget
            simp [hdone]
            omega
        · rw [if_neg hc] at hne ⊢
          unfold sctMeasure
          apply sum_map_set_lt _ s.tasks i t _ hget
          simp [hdone]
          omega

/-- Every per-output attempt counter starts at zero. -/
theorem sctInit_attempt (fixing_num : Nat) (outputs : List String) :
    ∀ t ∈ (sctInit fixing_num outputs).tasks, t.attempt ≤ fixing_num := by
  intro t ht
  rcases List.mem_map.mp ht with ⟨o, _, rfl⟩
  exact Nat.zero_le _

/-- The dynamic-fixing second pass restarts every attempt counter at
zero and keeps the shared budget and total. -/
theorem sctResetPass_attempt (fixing_num : Nat) (s : SctState) :
    ∀ t ∈ (sctResetPass s).tasks, t.attempt ≤ fixing_num := by
  intro t ht
  rcases List.mem_map.mp ht with ⟨u, _, rfl⟩
  exact Nat.zero_le _

/-- C9: over any interleaving of the repair coroutines (and of the
optional dynamic-fixing second pass), `total_attempt + remaining_fixes`
always equals the initial budget `fixing_num * N`, so at most
`fixing_num * N` repair calls are ever made; within a pass no output
exceeds `fixing_num` attempts; an exhausted budget blocks further
calls; and every state-changing iteration strictly decreases the
termination measure, bounding every run. -/
theorem C9_repair_budget (parseOk : String → Bool) (fixFn : String → String)
    (fixing_num : Nat) (dynamic_fixing : Bool) (outputs : List String)
    (sched1 sched2 : List Nat) :
    ((processSctModel parseOk fixFn fixing_num dynamic_fixing outputs
          sched1 sched2).totalCalls +
        (processSctModel parseOk fixFn fixing_num dynamic_fixing outputs
          sched1 sched2).remaining = fixing_num * outputs.length) ∧
    ((processSctModel parseOk fixFn fixing_num dynamic_fixing outputs
        sched1 sched2).totalCalls ≤ fixing_num * outputs.length) ∧
    (∀ t ∈ (processSctModel parseOk fixFn fixing_num dynamic_fixing outputs
        sched1 sched2).tasks, t.attempt ≤ fixing_num) ∧
    (∀ (s : SctState) (i : Nat), s.remaining = 0 →
      (sctStep parseOk fixFn fixing_num s i).totalCalls = s.totalCalls) ∧
    (∀ (s : SctState) (i : Nat),
      (∀ t ∈ s.tasks, t.attempt ≤ fixing_num) →
      sctStep parseOk fixFn fixing_num s i ≠ s →
      sctMeasure fixing_num (sctStep parseOk fixFn fixing_num s i) <
        sctMeasure fixing_num s) := by
  have hinit : (sctInit fixing_num outputs).totalCalls +
      (sctInit fixing_num outputs).remaining = fixing_num * outputs.length := by
    simp [sctInit]
  have hbudget : (processSctModel parseOk fixFn fixing_num dynamic_fixing outputs
      sched1 sched2).totalCalls +
        (processSctModel parseOk fixFn fixing_num dynamic_fixing outputs
          sched1 sched2).remaining = fixing_num * outputs.length := by
    unfold processSctModel
    by_cases hdyn : dynamic_fixing = true ∧
        0 < (sctRun parseOk fixFn fixing_num (sctInit fixing_num outputs) sched1).remaining
    · rw [if_pos hdyn]
      rw [sctRun_budget]
      have hreset : (sctResetPass (sctRun parseOk fixFn fixing_num
          (sctInit fixing_num outputs) sched1)).totalCalls +
            (sctResetPass (sctRun parseOk fixFn fixing_num
              (sctInit fixing_num outputs) sched1)).remaining =
          (sctRun parseOk fixFn fixing_num
            (sctInit fixing_num outputs) sched1).totalCalls +
            (sctRun parseOk fixFn fixing_num
              (sctInit fixing_num outputs) sched1).remaining := rfl
      rw [hreset, sctRun_budget]
      exact hinit
    · rw [if_neg hdyn]
      rw [sctRun_budget]
      exact hinit
  refine ⟨hbudget, by omega, ?_,
    sctStep_no_call_when_exhausted parseOk fixFn fixing_num,
    sctStep_measure_lt parseOk fixFn fixing_num⟩
  unfold processSctModel
  by_cases hdyn : dynamic_fixing = true ∧
      0 < (sctRun parseOk fixFn fixing_num (sctInit fixing_num outputs) sched1).remaining
  · rw [if_pos hdyn]
    exact sctRun_attempt_inv parseOk fixFn fixing_num sched2 _
      (sctResetPass_attempt fixing_num _)
  · rw [if_neg hdyn]
    exact sctRun_attempt_inv parseOk fixFn fixing_num sched1 _
      (sctInit_attempt fixing_num outputs)

/-- Soundness of the greedy repetition: any retained suffix splits off a
prefix accepted by the starred pattern. -/
theorem starLoop_sound (a : Regex)
    (iha : ∀ (s t : List Char), t ∈ matchEnds a s → ∃ u, s = u ++ t ∧ RMatch a u) :
    ∀ (n : Nat) (s t : List Char), t ∈ starLoop (matchEnds a) n s →
      ∃ u, s = u ++ t ∧ RMatch (Regex.star a) u := by
  intro n
  induction n with
  | zero =>
      intro s t ht
      rcases List.mem_singleton.mp ht with rfl
      exact ⟨[], rfl, RMatch.starNil⟩
  | succ m ih =>
      intro s t ht
      unfold starLoop at ht
      rcases List.mem_append.mp ht with ht | ht
      · rcases List.mem_flatten.mp ht with ⟨inner, hinner, htin⟩
        rcases List.mem_map.mp hinner with ⟨mid, hmid, rfl⟩
        have hmidmem : mid ∈ matchEnds a s := (List.mem_filter.mp hmid).1
        obtain ⟨u1, hs, hm1⟩ := iha s mid hmidmem
        obtain ⟨u2, hmid2, hm2⟩ := ih mid t htin
        refine ⟨u1 ++ u2, ?_, RMatch.starCons hm1 hm2⟩
        rw [hs, hmid2, List.append_assoc]
      · rcases List.mem_singleton.mp ht with rfl
        exact ⟨[], rfl, RMatch.starNil⟩

/-- Soundness of the engine: every retained suffix splits off a prefix
accepted by the pattern. -/
theorem matchEnds_sound :
    ∀ (r : Regex) (s t : List Char), t ∈ matchEnds r s →
      ∃ u, s = u ++ t ∧ RMatch r u := by
  intro r
  induction r with
  | emptyStr =>
      intro s t ht
      rcases List.mem_singleton.mp ht with rfl
      exact ⟨[], rfl, RMatch.emptyStr⟩
  | lit c =>
      intro s t ht
      cases s with
      | nil => simp [matchEnds] at ht
      | cons a rest =>
          simp only [matchEnds] at ht
          by_cases hac : a = c
          · rw [if_pos hac] at ht
            rcases List.mem_singleton.mp ht with rfl
            exact ⟨[a], rfl, hac ▸ RMatch.lit a⟩
          · rw [if_neg hac] at ht
            cases ht
  | anyChar =>
      intro s t ht
      cases s with
      | nil => simp [matchEnds] at ht
      | cons a rest =>
          simp only [matchEnds] at ht
          rcases List.mem_singleton.mp ht with rfl
          exact ⟨[a], rfl, RMatch.anyChar a⟩
  | seq a b iha ihb =>
      intro s t ht
      simp only [matchEnds] at ht
      rcases List.mem_flatten.mp ht with ⟨inner, hinner, hti⟩
      rcases List.mem_map.mp hinner with ⟨mid, hmid, rfl⟩
      obtain ⟨u1, hs, h1⟩ := iha s mid hmid
      obtain ⟨u2, hmid2, h2⟩ := ihb mid t hti
      refine ⟨u1 ++ u2, ?_, RMatch.seq h1 h2⟩
      rw [hs, hmid2, List.append_assoc]
  | alt a b iha ihb =>
      intro s t ht
      simp only [matchEnds] at ht
      rcases List.mem_append.mp ht with ht | ht
      · obtain ⟨u, hs, h1⟩ := iha s t ht
        exact ⟨u, hs, RMatch.altL h1⟩
      · obtain ⟨u, hs, h1⟩ := ihb s t ht
        exact ⟨u, hs, RMatch.altR h1⟩
  | star a iha =>
      intro s t ht
      simp only [matchEnds] at ht
      exact starLoop_sound a iha s.length s t ht

/-- `re.search` soundness: a successful search returns a factor of the
subject accepted by the pattern. -/
theorem reSearch_sound (r : Regex) :
    ∀ (s m : List Char), reSearch r s = some m →
      ∃ pre post, s = pre ++ m ++ post ∧ RMatch r m := by
  intro s
  induction s with
  | nil =>
      intro m h
      simp only [reSearch] at h
      cases hh : (matchEnds r []).head? with
      | none => rw [hh] at h; simp at h
      | some e =>
          rw [hh] at h
          simp only [Option.map_some', Option.some.injEq] at h
          subst h
          have he : e ∈ matchEnds r [] := List.mem_of_mem_head? (by simp [hh])
          obtain ⟨u, hu, hm⟩ := matchEnds_sound r [] e he
          obtain ⟨hu1, hu2⟩ := List.append_eq_nil.mp hu.symm
          refine ⟨[], [], rfl, ?_⟩
          rw [hu1] at hm
          exact hm
  | cons c rest ih =>
      intro m h
      cases hh : (matchEnds r (c :: rest)).head? with
      | some e =>
          unfold reSearch at h
          rw [hh] at h
          simp only [Option.some.injEq] at h
          have he : e ∈ matchEnds r (c :: rest) :=
            List.mem_of_mem_head? (by simp [hh])
          obtain ⟨u, hs, hm⟩ := matchEnds_sound r (c :: rest) e he
          have htake : (c :: rest).take ((c :: rest).length - e.length) = u := by
            rw [hs, List.length_append, Nat.add_sub_cancel, List.take_left]
          refine ⟨[], e, ?_, ?_⟩
          · rw [← h, htake, List.nil_append]
            exact hs
          · rw [← h, htake]
            exact hm
      | none =>
          unfold reSearch at h
          rw [hh] at h
          obtain ⟨pre, post, hdec, hm⟩ := ih m h
          exact ⟨c :: pre, post, by rw [hdec]; simp, hm⟩

/-- C10: `process_regex` is total and two-valued — on a successful
search it returns exactly the engine's first match, which is a factor of
the observation accepted by the pattern; on a failed search it returns
the failure description containing both the observation and the
rendered pattern — and `_process_question_nodes` writes that very string
(whichever case applies) as the conclusion of every node sharing the
question, dropping none. -/
theorem C10_process_regex_total (extract : String → String → String)
    (obs question : String) (r : Regex) (nodes : List Node)
    (first : Node) (rest : List Node)
    (hn : nodes = first :: rest) (hre : first.regex = some r) :
    ((∃ m, reSearch r obs.data = some m ∧ process_regex obs r = String.mk m ∧
        ∃ pre post, obs.data = pre ++ m ++ post ∧ RMatch r m) ∨
     (reSearch r obs.data = none ∧
       (∃ pre post, process_regex obs r = pre ++ obs ++ post) ∧
       (∃ pre2 post2, process_regex obs r = pre2 ++ reprRegex r ++ post2))) ∧
    (∀ nd ∈ _process_question_nodes extract obs question nodes,
      nd.conclusion = process_regex obs r) ∧
    (_process_question_nodes extract obs question nodes).length = nodes.length := by
  subst hn
  refine ⟨?_, ?_, ?_⟩
  · cases hsearch : reSearch r obs.data with
    | some m =>
        left
        obtain ⟨pre, post, hdec, hm⟩ := reSearch_sound r obs.data m hsearch
        refine ⟨m, rfl, ?_, pre, post, hdec, hm⟩
        unfold process_regex
        rw [hsearch]
    | none =>
        right
        refine ⟨rfl, ?_, ?_⟩
        · refine ⟨"正则表达式匹配失败: '", "' 配置的正则: " ++ reprRegex r, ?_⟩
          unfold process_regex
          rw [hsearch]
          simp [String.append_assoc]
        · refine ⟨"正则表达式匹配失败: '" ++ obs ++ "' 配置的正则: ", "", ?_⟩
          unfold process_regex
          rw [hsearch]
          simp [String.append_assoc]
  · intro nd hnd
    unfold _process_question_nodes at hnd
    simp only [hre] at hnd
    rcases List.mem_map.mp hnd with ⟨n0, _, rfl⟩
    rfl
  · unfold _process_question_nodes
    simp only [hre]
    simp

/-- C10 witness: observation `"abc"` with pattern `'b'` on the two
nodes sharing question `"q"`: both conclusions become the matched text
`"b"`, and with an unmatched observation the failure description is
assigned instead. -/
theorem C10_witness :
    ((∃ m, reSearch (Regex.lit 'b') ("abc" : String).data = some m ∧
        process_regex "abc" (Regex.lit 'b') = String.mk m ∧
        ∃ pre post, ("abc" : String).data = pre ++ m ++ post ∧
          RMatch (Regex.lit 'b') m) ∨
     (reSearch (Regex.lit 'b') ("abc" : String).data = none ∧
       (∃ pre post, process_regex "abc" (Regex.lit 'b') = pre ++ "abc" ++ post) ∧
       (∃ pre2 post2, process_regex "abc" (Regex.lit 'b') =
          pre2 ++ reprRegex (Regex.lit 'b') ++ post2))) ∧
    (∀ nd ∈ _process_question_nodes (fun _ _ => "") "abc" "q" [nodeC10a, nodeC10b],
      nd.conclusion = process_regex "abc" (Regex.lit 'b')) ∧
    (_process_question_nodes (fun _ _ => "") "abc" "q"
        [nodeC10a, nodeC10b]).length = ([nodeC10a, nodeC10b] : List Node).length :=
  C10_process_regex_total (fun _ _ => "") "abc" "q" (Regex.lit 'b')
    [nodeC10a, nodeC10b] nodeC10a [nodeC10b] rfl rfl
